import Mathlib

/-!
Verification of the `logsy` structured logger (`src/logsy/core/contextual.py`)
against its natural-language specification.

Python strings are modelled as `List Char` (a Python `str` is a sequence of
unicode scalar values).  External collaborators (the `textwrap` standard
library, `os.path.dirname`/`os.makedirs`, the terminal-size query and the
caller-context/timestamp providers) are embedded from their documented,
deterministic behaviour; the points where the model abstracts are noted at each
definition.  Functions whose Python originals recurse on non-structural
suffixes are written with an explicit fuel argument (always called with
sufficient fuel by their wrappers) so that every definition evaluates by kernel
reduction; fuel-irrelevance lemmas recover the natural recursion equations.
-/

namespace Logsy

/-- Python strings, modelled as lists of unicode scalar values. -/
abbrev PyStr := List Char

/-- The ESC character `\x1b` that starts every ANSI escape sequence. -/
def escChar : Char := '\x1b'

/-- The characters Python's `str.strip()` / `str.isspace()` treat as whitespace
(unicode whitespace: tab through carriage return, the information separators
`\x1c`-`\x1f`, space, NEL, NBSP and the unicode space block). -/
def isPySpace (c : Char) : Bool :=
  (0x9 ≤ c.toNat && c.toNat ≤ 0xD) || c = ' ' ||
  (0x1C ≤ c.toNat && c.toNat ≤ 0x1F) || c.toNat = 0x85 || c.toNat = 0xA0 ||
  c.toNat = 0x1680 || (0x2000 ≤ c.toNat && c.toNat ≤ 0x200A) ||
  c.toNat = 0x2028 || c.toNat = 0x2029 || c.toNat = 0x202F ||
  c.toNat = 0x205F || c.toNat = 0x3000

/-- `s.strip() == ''` in Python: every character is whitespace. -/
def stripEmpty (s : PyStr) : Bool := s.all isPySpace

/-- Number of non-whitespace characters of a string (used to track that the
wrapping algorithm never loses visible content). -/
def countNW (s : PyStr) : Nat := (s.filter (fun c => !isPySpace c)).length

/-! ### `strip_ansi_codes` (contextual.py lines 150-163)

The regex is `\x1B(?:[@-Z\\-_]|\[[0-?]*[ -\x2f]*[@-~])`: after an ESC either a
single byte in `0x40-0x5A` or `0x5C-0x5F`, or a CSI sequence `[` followed by
parameter bytes `0x30-0x3F`, intermediate bytes `0x20-0x2F` and one final byte
`0x40-0x7E`.  The three CSI byte classes are pairwise disjoint, so the greedy
regex match is exactly maximal-munch and `re.sub` is a single left-to-right
scan. -/

/-- Parameter bytes (`0x30-0x3F`) of a CSI sequence. -/
def isCsiParam (c : Char) : Bool := 0x30 ≤ c.toNat && c.toNat ≤ 0x3F

/-- Intermediate bytes (`0x20-0x2F`) of a CSI sequence. -/
def isCsiInter (c : Char) : Bool := 0x20 ≤ c.toNat && c.toNat ≤ 0x2F

/-- Final bytes (`0x40-0x7E`) of a CSI sequence. -/
def isCsiFinal (c : Char) : Bool := 0x40 ≤ c.toNat && c.toNat ≤ 0x7E

/-- The single-byte escape class (`0x40-0x5A`, `0x5C-0x5F`; note `[` = `0x5B`
is excluded, so `ESC [` always takes the CSI alternative). -/
def isEscSingle (c : Char) : Bool :=
  (0x40 ≤ c.toNat && c.toNat ≤ 0x5A) || (0x5C ≤ c.toNat && c.toNat ≤ 0x5F)

/-- Try to match the part of an ANSI escape sequence that follows the ESC;
returns the remainder of the string after the full match, or `none` when no
escape sequence starts here. -/
def ansiTail (rest : PyStr) : Option PyStr :=
  match rest with
  | [] => none
  | x :: xs =>
    if isEscSingle x then some xs
    else if x = '[' then
      match List.dropWhile isCsiInter (List.dropWhile isCsiParam xs) with
      | [] => none
      | f :: fs => if isCsiFinal f then some fs else none
    else none

theorem dropWhile_len_le (p : Char → Bool) (l : List Char) :
    (l.dropWhile p).length ≤ l.length := by
  induction l with
  | nil => simp
  | cons a t ih =>
    by_cases h : p a
    · rw [List.dropWhile_cons_of_pos h]; simp; omega
    · rw [List.dropWhile_cons_of_neg h]

theorem ansiTail_lt (rest r : PyStr) (h : ansiTail rest = some r) :
    r.length < rest.length := by
  match rest with
  | [] => simp [ansiTail] at h
  | x :: xs =>
    simp only [ansiTail] at h
    split at h
    · cases h; simp
    · split at h
      · split at h
        · exact absurd h (by simp)
        · rename_i f fs heq
          split at h
          · cases h
            have h1 := dropWhile_len_le isCsiParam xs
            have h2 := dropWhile_len_le isCsiInter (List.dropWhile isCsiParam xs)
            rw [heq] at h2; simp at h2 ⊢; omega
          · exact absurd h (by simp)
      · exact absurd h (by simp)

/-- Fueled worker for `strip_ansi_codes`. -/
def stripAnsiCore : Nat → PyStr → PyStr
  | 0, _ => []
  | fuel + 1, s =>
    match s with
    | [] => []
    | c :: rest =>
      if c = escChar then
        match ansiTail rest with
        | some r => stripAnsiCore fuel r
        | none => c :: stripAnsiCore fuel rest
      else c :: stripAnsiCore fuel rest

theorem stripAnsiCore_congr : ∀ (n m : Nat) (s : PyStr),
    s.length < n → s.length < m → stripAnsiCore n s = stripAnsiCore m s := by
  intro n
  induction n with
  | zero => intro m s h _; omega
  | succ n ih =>
    intro m s hn hm
    match m with
    | 0 => omega
    | m + 1 =>
      match s with
      | [] => rfl
      | c :: rest =>
        simp only [stripAnsiCore]
        by_cases hc : c = escChar
        · rw [if_pos hc, if_pos hc]
          cases hA : ansiTail rest with
          | some r =>
            have hr := ansiTail_lt rest r hA
            simp only []
            apply ih <;> (simp at hn hm; omega)
          | none =>
            simp only []
            congr 1
            apply ih <;> (simp at hn hm; omega)
        · rw [if_neg hc, if_neg hc]
          congr 1
          apply ih <;> (simp at hn hm; omega)

/-- `strip_ansi_codes` (lines 150-163): remove every ANSI escape sequence,
scanning left to right exactly like `re.sub` with the pattern above. -/
def stripAnsi (s : PyStr) : PyStr := stripAnsiCore (s.length + 1) s

theorem stripAnsi_nil : stripAnsi [] = [] := rfl

/-- The natural recursion equation for `stripAnsi`. -/
theorem stripAnsi_cons (c : Char) (rest : PyStr) :
    stripAnsi (c :: rest) =
      if c = escChar then
        match ansiTail rest with
        | some r => stripAnsi r
        | none => c :: stripAnsi rest
      else c :: stripAnsi rest := by
  show stripAnsiCore (rest.length + 1 + 1) (c :: rest) = _
  simp only [stripAnsiCore]
  by_cases hc : c = escChar
  · rw [if_pos hc, if_pos hc]
    cases hA : ansiTail rest with
    | some r =>
      simp only []
      exact stripAnsiCore_congr (rest.length + 1) (r.length + 1) r
        (by have := ansiTail_lt rest r hA; omega) (by omega)
    | none => rfl
  · rw [if_neg hc, if_neg hc]; rfl

/-- Visible length: character count after removing ANSI escape sequences
(spec §4.1 and glossary). -/
def visibleLen (s : PyStr) : Nat := (stripAnsi s).length

/-- Stripping escape codes never lengthens a string. -/
theorem visibleLen_le (s : PyStr) : visibleLen s ≤ s.length := by
  have H : ∀ n s, (s : PyStr).length < n → (stripAnsi s).length ≤ s.length := by
    intro n
    induction n with
    | zero => intro s h; omega
    | succ n ih =>
      intro s hs
      match s with
      | [] => simp [stripAnsi_nil]
      | c :: rest =>
        rw [stripAnsi_cons]
        by_cases hc : c = escChar
        · rw [if_pos hc]
          cases hA : ansiTail rest with
          | some r =>
            have h1 := ansiTail_lt rest r hA
            have h2 := ih r (by simp at hs; omega)
            simp only []
            simp at hs ⊢
            omega
          | none =>
            have h2 := ih rest (by simp at hs; omega)
            simp only []
            simp
            omega
        · rw [if_neg hc]
          have h2 := ih rest (by simp at hs; omega)
          simp
          omega
  exact H (s.length + 1) s (by omega)

/-! ### Color table and `apply_color` -/

/-- Modelled from the spec: the color-name → escape-code table `COLOR_MAP` is
defined in `logsy/core/utils.py`, which is not under `src/`.  Spec §6 requires
recognized names to include at least `blue, yellow, red, cyan, reset` mapped to
standard ANSI SGR escape sequences; the constructor docstring mentions `green`
and the tests use `magenta`, so those standard SGR codes are included too. -/
def COLOR_MAP : List (PyStr × PyStr) :=
  [ ("red".toList, "\x1b[31m".toList),
    ("green".toList, "\x1b[32m".toList),
    ("yellow".toList, "\x1b[33m".toList),
    ("blue".toList, "\x1b[34m".toList),
    ("magenta".toList, "\x1b[35m".toList),
    ("cyan".toList, "\x1b[36m".toList),
    ("reset".toList, "\x1b[0m".toList) ]

/-- `COLOR_MAP['reset']`. -/
def resetCode : PyStr := "\x1b[0m".toList

/-- `COLOR_MAP.values()`, in iteration order. -/
def colorCodes : List PyStr := COLOR_MAP.map Prod.snd

/-- Association-list lookup, modelling Python `dict` access. -/
def lookupA (m : List (PyStr × PyStr)) (k : PyStr) : Option PyStr :=
  match m with
  | [] => none
  | (k2, v) :: t => if k2 = k then some v else lookupA t k

/-- Association-list update, modelling Python `dict` assignment. -/
def setA (m : List (PyStr × PyStr)) (k v : PyStr) : List (PyStr × PyStr) :=
  match m with
  | [] => [(k, v)]
  | (k2, v2) :: t => if k2 = k then (k, v) :: t else (k2, v2) :: setA t k v

/-- `str.upper()`, ASCII model (log levels and color names are ASCII). -/
def pyUpper (s : PyStr) : PyStr := s.map Char.toUpper

/-- `str.lower()`, ASCII model. -/
def pyLower (s : PyStr) : PyStr := s.map Char.toLower

/-- `Logsy.DEFAULT_COLORS` (lines 12-17): INFO→blue, WARNING→yellow,
ERROR→red, DEBUG→cyan, with the codes taken from `COLOR_MAP`. -/
def DEFAULT_COLORS : List (PyStr × PyStr) :=
  [ ("INFO".toList, "\x1b[34m".toList),
    ("WARNING".toList, "\x1b[33m".toList),
    ("ERROR".toList, "\x1b[31m".toList),
    ("DEBUG".toList, "\x1b[36m".toList) ]

/-- The `self.colors` dict built in `__init__` (lines 47, 56-59): a copy of
`DEFAULT_COLORS` updated with each custom entry whose color name (lowercased)
is a `COLOR_MAP` key; unknown names are silently ignored. -/
def buildColors (custom : List (PyStr × PyStr)) : List (PyStr × PyStr) :=
  custom.foldl
    (fun m kv =>
      match lookupA COLOR_MAP (pyLower kv.2) with
      | some code => setA m (pyUpper kv.1) code
      | none => m)
    DEFAULT_COLORS

/-- `apply_color` (lines 93-108): the plain message when colors are disabled,
otherwise `colors.get(level.upper(), COLOR_MAP['reset'])` + message + reset. -/
def apply_color (useColor : Bool) (colors : List (PyStr × PyStr))
    (level message : PyStr) : PyStr :=
  if useColor = false then message
  else ((lookupA colors (pyUpper level)).getD resetCode) ++ message ++ resetCode

/-! ### `build_message` (lines 110-134)

The caller context `(filename, line_number)` delivered by `get_context` and the
formatted timestamp delivered by `get_timestamp` are external inputs (spec §1);
they are passed in as parameters. -/

/-- `" ".join(parts)`. -/
def joinSp : List PyStr → PyStr
  | [] => []
  | [x] => x
  | x :: y :: t => x ++ ' ' :: joinSp (y :: t)

/-- Decimal digit character. -/
def digitChar (d : Nat) : Char :=
  if d = 0 then '0' else if d = 1 then '1' else if d = 2 then '2'
  else if d = 3 then '3' else if d = 4 then '4' else if d = 5 then '5'
  else if d = 6 then '6' else if d = 7 then '7' else if d = 8 then '8' else '9'

/-- Fueled decimal rendering of a natural number. -/
def natCharsCore : Nat → Nat → PyStr
  | 0, _ => []
  | fuel + 1, n =>
    if n < 10 then [digitChar n]
    else natCharsCore fuel (n / 10) ++ [digitChar (n % 10)]

/-- Decimal rendering of a line number (`f"{line_number}"`). -/
def natChars (n : Nat) : PyStr := natCharsCore (n + 1) n

/-- `build_message` (lines 110-134): assemble
`[timestamp]` (if `with_time`), `[LEVEL]` (uppercased), `filename:line`,
`- message`, space-joined, then `apply_color` over the whole string. -/
def build_message (withTime useColor : Bool) (colors : List (PyStr × PyStr))
    (level message filename : PyStr) (lineNo : Nat) (timestamp : PyStr) : PyStr :=
  apply_color useColor colors level
    (joinSp ((if withTime then [('[' :: timestamp) ++ [']']] else []) ++
      [('[' :: pyUpper level) ++ [']'],
       filename ++ ':' :: natChars lineNo,
       '-' :: ' ' :: message]))

/-! ### The file sink line written by `log` (lines 347-352)

`log` writes `clean_message + "\n"` where `clean_message` is the colorized line
with every `COLOR_MAP` value removed by successive `str.replace(code, "")`. -/

/-- Fueled worker for `str.replace`. -/
def pyReplaceCore : Nat → PyStr → PyStr → PyStr → PyStr
  | 0, _, _, _ => []
  | fuel + 1, s, pat, repl =>
    match s with
    | [] => []
    | c :: cs =>
      if pat ≠ [] ∧ pat.isPrefixOf (c :: cs) then
        repl ++ pyReplaceCore fuel ((c :: cs).drop pat.length) pat repl
      else c :: pyReplaceCore fuel cs pat repl

theorem pyReplaceCore_congr : ∀ (n m : Nat) (s pat repl : PyStr),
    s.length < n → s.length < m →
    pyReplaceCore n s pat repl = pyReplaceCore m s pat repl := by
  intro n
  induction n with
  | zero => intro m s pat repl h _; omega
  | succ n ih =>
    intro m s pat repl hn hm
    match m with
    | 0 => omega
    | m + 1 =>
      match s with
      | [] => rfl
      | c :: cs =>
        simp only [pyReplaceCore]
        by_cases hp : pat ≠ [] ∧ pat.isPrefixOf (c :: cs)
        · rw [if_pos hp, if_pos hp]
          congr 1
          have hlen : pat.length ≠ 0 := by
            intro h0; exact hp.1 (List.length_eq_zero.mp h0)
          apply ih <;> (simp [List.length_drop] at hn hm ⊢; omega)
        · rw [if_neg hp, if_neg hp]
          congr 1
          apply ih <;> (simp at hn hm; omega)

/-- `s.replace(pat, repl)`: left-to-right, non-overlapping, the replacement is
not rescanned.  (Python's special behaviour for an empty pattern is irrelevant:
the logger only replaces the non-empty color codes.) -/
def pyReplace (s pat repl : PyStr) : PyStr := pyReplaceCore (s.length + 1) s pat repl

theorem pyReplace_nil (pat repl : PyStr) : pyReplace [] pat repl = [] := rfl

/-- The natural recursion equation for `pyReplace`. -/
theorem pyReplace_cons (c : Char) (cs pat repl : PyStr) :
    pyReplace (c :: cs) pat repl =
      if pat ≠ [] ∧ pat.isPrefixOf (c :: cs) then
        repl ++ pyReplace ((c :: cs).drop pat.length) pat repl
      else c :: pyReplace cs pat repl := by
  have hstep : pyReplace (c :: cs) pat repl =
      if pat ≠ [] ∧ pat.isPrefixOf (c :: cs) then
        repl ++ pyReplaceCore (cs.length + 1) ((c :: cs).drop pat.length) pat repl
      else c :: pyReplaceCore (cs.length + 1) cs pat repl := rfl
  rw [hstep]
  by_cases hp : pat ≠ [] ∧ pat.isPrefixOf (c :: cs)
  · rw [if_pos hp, if_pos hp]
    congr 1
    have hlen : pat.length ≠ 0 := by
      intro h0; exact hp.1 (List.length_eq_zero.mp h0)
    exact pyReplaceCore_congr (cs.length + 1)
      (((c :: cs).drop pat.length).length + 1) ((c :: cs).drop pat.length)
      pat repl (by simp [List.length_drop]; omega) (by omega)
  · rw [if_neg hp, if_neg hp]; rfl

/-- The `for code in COLOR_MAP.values(): clean_message.replace(code, "")` loop
of `log` (lines 350-351). -/
def cleanLine (s : PyStr) : PyStr :=
  colorCodes.foldl (fun acc code => pyReplace acc code []) s

/-- The line content appended to the file sink by `log` (line 352), without
the trailing newline. -/
def fileLine (withTime useColor : Bool) (custom : List (PyStr × PyStr))
    (level message filename : PyStr) (lineNo : Nat) (timestamp : PyStr) : PyStr :=
  cleanLine (build_message withTime useColor (buildColors custom)
    level message filename lineNo timestamp)

/-! ### `calculate_optimal_widths` (lines 165-201)

The distribution terms are `int(extra_space * 0.10)`, `int(extra_space * 0.20)`
and `int(extra_space * 0.70)` computed in Python, i.e. IEEE-754
double-precision products truncated toward zero.  The multiplication is
embedded exactly: the double constants are `0.1 = 3602879701896397/2^55`,
`0.2 = 3602879701896397/2^54`, `0.7 = 3152519739159347/2^52`, and the product
`n * c` is the round-to-nearest-even double of the exact rational
`n*m/2^shift` (no overflow or subnormals occur for these magnitudes). -/

/-- Fueled binary bit length (`int.bit_length`). -/
def bitLenCore : Nat → Nat → Nat
  | 0, _ => 0
  | fuel + 1, n => if n = 0 then 0 else bitLenCore fuel (n / 2) + 1

/-- Binary bit length of a natural number (`int.bit_length`). -/
def bitLen (n : Nat) : Nat := bitLenCore (n + 1) n

/-- `int(n * c)` for a natural `n` and the positive double `c = m / 2^shift`:
round the exact product to the nearest double (ties to even significand), then
truncate toward zero. -/
def pyIntMulC (n m shift : Nat) : Nat :=
  let P := n * m
  if P = 0 then 0
  else
    let b := bitLen P
    if b ≤ 53 then P / 2 ^ shift
    else
      let k := b - 53
      let q := P / 2 ^ k
      let r := P % 2 ^ k
      let h := 2 ^ (k - 1)
      let q2 := if h < r ∨ (r = h ∧ q % 2 = 1) then q + 1 else q
      q2 * 2 ^ k / 2 ^ shift

/-- Significand of the double `0.1` (= `c10m / 2^55`). -/
def c10m : Nat := 3602879701896397

/-- Significand of the double `0.2` (= `c20m / 2^54`). -/
def c20m : Nat := 3602879701896397

/-- Significand of the double `0.7` (= `c70m / 2^52`). -/
def c70m : Nat := 3152519739159347

/-! ### `wrap_text` (lines 203-221) and the `textwrap` standard library

`wrap_text` returns `[text]` when `len(text) <= width` and otherwise delegates
to `textwrap.wrap(text, width, break_long_words=True, break_on_hyphens=True,
expand_tabs=False)`, falling back to `[text]` when the result is empty.
`textwrap` is external library code; it is embedded from CPython's
implementation with the logger's fixed options:

1. `_munge_whitespace`: `expand_tabs` is false and `replace_whitespace` is
   true (default), so each of tab, LF, VT, FF, CR becomes one space.
2. `_split` with `wordsep_re` (`break_on_hyphens=True`): the munged text is
   split into space runs and word pieces; a word ends after a hyphen preceded
   by letter-letter or letter-hyphen-letter and followed by letter,
   optional-hyphen, letter; an em-dash run (two or more hyphens preceded by a
   word-punctuation character and followed by a word character) is its own
   chunk.  The `\w`-based character classes are modelled over their ASCII
   fragment (alphanumerics plus underscore).
3. `_wrap_chunks` with `max_lines=None`, `drop_whitespace=True` (default) and
   `break_long_words=True`: the greedy line-filling loop, with
   `_handle_long_word` chopping an over-wide chunk at the last hyphen inside
   the remaining space when admissible, else at the space boundary.
   `width <= 0` raises `ValueError`, modelled as `none` in `wrap_text`.

Note on lookbehinds: the regex lookbehind may inspect characters before the
current chunk; every such pattern only accepts letters, hyphens or
word-punctuation, all of which are non-space, so splitting each maximal
non-space run with the run-local context is faithful. -/

/-- `_munge_whitespace` with `expand_tabs=False, replace_whitespace=True`. -/
def mungeChar (c : Char) : Char :=
  if c = '\t' ∨ c = '\n' ∨ c = '\x0b' ∨ c = '\x0c' ∨ c = '\r' then ' ' else c

/-- `_munge_whitespace` over the whole string. -/
def munge (s : PyStr) : PyStr := s.map mungeChar

/-- `\w` (ASCII fragment): alphanumeric or underscore. -/
def isWordChar (c : Char) : Bool := c.isAlphanum || c = '_'

/-- The `wordsep_re` letter class `[^\d\W]` (ASCII fragment): alphabetic or
underscore. -/
def isLetterW (c : Char) : Bool := c.isAlpha || c = '_'

/-- The `wordsep_re` word-punctuation class. -/
def isWordPunct (c : Char) : Bool :=
  isWordChar c || c = '!' || c = '"' || c = '\'' || c = '&' || c = '.' ||
  c = ',' || c = '?'

/-- Hyphen character test (as a `Bool`-valued predicate for `takeWhile`). -/
def isDash (c : Char) : Bool := c = '-'

/-- Lookbehind `letter letter hyphen` at a just-consumed hyphen; `ctx` is the
reversed prefix of the run ending at (and including) that hyphen. -/
def lbLetLetDash : PyStr → Bool
  | '-' :: a :: b :: _ => isLetterW a && isLetterW b
  | _ => false

/-- Lookbehind `letter hyphen letter hyphen` at a just-consumed hyphen. -/
def lbLetDashLetDash : PyStr → Bool
  | '-' :: a :: '-' :: b :: _ => isLetterW a && isLetterW b
  | _ => false

/-- Lookahead `letter optional-hyphen letter` after a hyphen break point. -/
def hyphenAhead : PyStr → Bool
  | a :: b :: rest =>
    isLetterW a && (isLetterW b ||
      (b = '-' && (match rest with | c :: _ => isLetterW c | [] => false)))
  | _ => false

/-- The em-dash pattern `(?<=word-punct) -{2,} (?=\w)` at the position between
`lookback` (reversed context, most recent character first) and `rest`. -/
def emDashAt (lookback rest : PyStr) : Bool :=
  (match lookback with | p :: _ => isWordPunct p | [] => false) &&
  2 ≤ (rest.takeWhile isDash).length &&
  (match rest.dropWhile isDash with | w :: _ => isWordChar w | [] => false)

/-- Scan one word chunk of `wordsep_re`: starting after `lookback` with the
partial word `acc` (reversed), consume characters until the lazy `nws+?` match
can stop — at an admissible hyphen break, at the end of the run, or before an
em-dash.  Returns the finished chunk (reversed) and the remaining run. -/
def wordScan (lookback acc rest : PyStr) : PyStr × PyStr :=
  match rest with
  | [] => (acc, [])
  | c :: rs =>
    let acc2 := c :: acc
    if (c = '-' ∧ acc ≠ [] ∧
          (lbLetLetDash (acc2 ++ lookback) = true ∨
           lbLetDashLetDash (acc2 ++ lookback) = true) ∧
          hyphenAhead rs = true)
        ∨ rs = [] ∨ emDashAt (acc2 ++ lookback) rs = true
    then (acc2, rs)
    else wordScan lookback acc2 rs

theorem wordScan_snd_le (lookback : PyStr) :
    ∀ (rest acc : PyStr), (wordScan lookback acc rest).2.length ≤ rest.length := by
  intro rest
  induction rest with
  | nil => intro acc; simp [wordScan]
  | cons c rs ih =>
    intro acc
    simp only [wordScan]
    split
    · simp
    · have := ih (c :: acc)
      simp
      omega

/-- The word chunk reversed-prefix bookkeeping of `wordScan`: the consumed
part plus the remainder is the input. -/
theorem wordScan_append (lookback : PyStr) :
    ∀ (rest acc : PyStr),
      (wordScan lookback acc rest).1.reverse ++ (wordScan lookback acc rest).2 =
        acc.reverse ++ rest := by
  intro rest
  induction rest with
  | nil => intro acc; simp [wordScan]
  | cons c rs ih =>
    intro acc
    simp only [wordScan]
    split
    · simp
    · rw [ih (c :: acc)]
      simp

/-- Fueled worker splitting one maximal non-space run into `wordsep_re`
chunks. -/
def splitRunCore : Nat → PyStr → PyStr → List PyStr
  | 0, _, _ => []
  | fuel + 1, lookback, rest =>
    match rest with
    | [] => []
    | c :: rs =>
      if emDashAt lookback (c :: rs) = true then
        let ds := (c :: rs).takeWhile isDash
        let rest2 := (c :: rs).dropWhile isDash
        ds :: splitRunCore fuel (ds.reverse ++ lookback) rest2
      else
        let w := wordScan lookback [] (c :: rs)
        w.1.reverse :: splitRunCore fuel (w.1 ++ lookback) w.2

/-- Split one maximal non-space run into `wordsep_re` chunks. -/
def splitRun (lookback rest : PyStr) : List PyStr :=
  splitRunCore (rest.length + 1) lookback rest

/-- Space test used by the chunk splitter (after munging, the only
`wordsep_re` whitespace character that can occur is the space). -/
def isSpaceCh (c : Char) : Bool := c = ' '

/-- Fueled worker for `_split`. -/
def pySplitCore : Nat → PyStr → List PyStr
  | 0, _ => []
  | fuel + 1, s =>
    match s with
    | [] => []
    | c :: cs =>
      if c = ' ' then
        (c :: cs).takeWhile isSpaceCh ::
          pySplitCore fuel ((c :: cs).dropWhile isSpaceCh)
      else
        splitRun [] ((c :: cs).takeWhile (fun x => !isSpaceCh x)) ++
          pySplitCore fuel ((c :: cs).dropWhile (fun x => !isSpaceCh x))

/-- `_split`: the munged text cut into whitespace chunks and word chunks. -/
def pySplit (s : PyStr) : List PyStr := pySplitCore (s.length + 1) s

/-- Sum of chunk lengths. -/
def sumLen (l : List PyStr) : Nat := (l.map List.length).sum

/-- The greedy inner loop of `_wrap_chunks`: take chunks while the line stays
within `width`.  Returns the taken chunks, the resulting line length and the
remaining chunks. -/
def greedyTake (width : Nat) : Nat → List PyStr → List PyStr × Nat × List PyStr
  | curLen, [] => ([], curLen, [])
  | curLen, c :: cs =>
    if curLen + c.length ≤ width then
      let r := greedyTake width (curLen + c.length) cs
      (c :: r.1, r.2.1, r.2.2)
    else ([], curLen, c :: cs)

/-- `chunk.rfind('-', 0, end)` on a prefix already cut to `end`: index of the
last hyphen, if any. -/
def lastHyphenIdx : PyStr → Option Nat
  | [] => none
  | c :: cs =>
    match lastHyphenIdx cs with
    | some j => some (j + 1)
    | none => if c = '-' then some 0 else none

/-- `_handle_long_word` with `break_long_words=True, break_on_hyphens=True`:
chop the head chunk at the last admissible hyphen inside the free space, else
at the free-space boundary. -/
def handleLongWord (chunks : List PyStr) (curLen width : Nat) : PyStr × List PyStr :=
  match chunks with
  | [] => ([], [])
  | chunk :: rest =>
    let spaceLeft := if width < 1 then 1 else width - curLen
    let endIdx :=
      if spaceLeft < chunk.length then
        match lastHyphenIdx (chunk.take spaceLeft) with
        | some h =>
          if 0 < h ∧ (chunk.take h).any (fun x => !isDash x) = true then h + 1
          else spaceLeft
        | none => spaceLeft
      else spaceLeft
    (chunk.take endIdx, chunk.drop endIdx :: rest)

/-- The `if self.drop_whitespace and chunks[-1].strip() == '' and lines:` step
at the top of each `_wrap_chunks` iteration; `emitted` is Python's `lines`
non-emptiness. -/
def dropHeadWs (emitted : Bool) (c0 : PyStr) (rest0 : List PyStr) : List PyStr :=
  if emitted = true ∧ stripEmpty c0 = true then rest0 else c0 :: rest0

/-- One line-filling pass of `_wrap_chunks`: greedy fill, then
`_handle_long_word` when the next chunk is wider than the full line width.
Returns the chunk pieces of the current line and the remaining chunks. -/
def buildLine (width : Nat) (chunks1 : List PyStr) : List PyStr × List PyStr :=
  match greedyTake width 0 chunks1 with
  | (taken, curLen, rest) =>
    match rest with
    | [] => (taken, [])
    | c :: cs =>
      if width < c.length then
        match handleLongWord (c :: cs) curLen width with
        | (piece, rest2) => (taken ++ [piece], rest2)
      else (taken, c :: cs)

/-- The `if self.drop_whitespace and cur_line and cur_line[-1].strip() == ''`
step: drop one trailing whitespace piece from the line. -/
def dropTrailingWs (curLine : List PyStr) : List PyStr :=
  match curLine.getLast? with
  | some l => if stripEmpty l = true then curLine.dropLast else curLine
  | none => curLine

/-- One full `_wrap_chunks` iteration on a non-empty chunk list: the emitted
line (if any) and the remaining chunks. -/
def wrapStep (width : Nat) (emitted : Bool) (c0 : PyStr) (rest0 : List PyStr) :
    Option PyStr × List PyStr :=
  match buildLine width (dropHeadWs emitted c0 rest0) with
  | (curLine0, rest2) =>
    match dropTrailingWs curLine0 with
    | [] => (none, rest2)
    | curLine => (some curLine.flatten, rest2)

/-- Fueled `_wrap_chunks` main loop (`max_lines=None`, `drop_whitespace=True`,
`break_long_words=True`). -/
def wrapLoop : Nat → Nat → Bool → List PyStr → List PyStr
  | 0, _, _, _ => []
  | fuel + 1, width, emitted, chunks =>
    match chunks with
    | [] => []
    | c0 :: rest0 =>
      match wrapStep width emitted c0 rest0 with
      | (none, rest2) => wrapLoop fuel width emitted rest2
      | (some line, rest2) => line :: wrapLoop fuel width true rest2

/-- `textwrap.wrap(text, width, break_long_words=True, break_on_hyphens=True,
expand_tabs=False)` for `width ≥ 1`. -/
def textwrapWrap (text : PyStr) (width : Nat) : List PyStr :=
  let chunks := pySplit (munge text)
  wrapLoop (sumLen chunks + chunks.length + 1) width false chunks

/-- `wrap_text` (lines 203-221): `[text]` when the raw length fits, otherwise
`textwrap.wrap` with the fallback `[text]` for an empty result.  `none` models
the `ValueError` that `textwrap.wrap` raises for `width <= 0`. -/
def wrap_text (text : PyStr) (width : Nat) : Option (List PyStr) :=
  if text.length ≤ width then some [text]
  else if width = 0 then none
  else
    let wrapped := textwrapWrap text width
    some (if wrapped = [] then [text] else wrapped)

/-- The four column widths (`dict` with keys time/level/file_line/message). -/
structure Widths where
  time : Nat
  level : Nat
  file_line : Nat
  message : Nat
deriving DecidableEq

/-- `calculate_optimal_widths` (lines 165-201) as a pure function of the
terminal width (the `shutil.get_terminal_size()` result is an external input,
spec §1) and the `with_time` flag.  The per-instance memoisation caches this
value unchanged, so it is dropped from the pure model. -/
def calculate_optimal_widths (terminalWidth : Nat) (withTime : Bool) : Widths :=
  let borderWidth : Int := if withTime then 13 else 10
  let availableWidth : Int := (terminalWidth : Int) - borderWidth
  let minTime : Nat := if withTime then 19 else 0
  let minSum : Nat := minTime + 8 + 15 + 20
  if availableWidth < (minSum : Int) then
    ⟨minTime, 8, 15, 20⟩
  else
    let extra : Nat := (availableWidth - (minSum : Int)).toNat
    ⟨if withTime then minTime + pyIntMulC extra c10m 55 else 0,
     8,
     15 + pyIntMulC extra c20m 54,
     20 + pyIntMulC extra c70m 52⟩

/-- The width policy exactly as claim C1 states it: exact mathematical
`floor(extra*0.10)`, `floor(extra*0.20)`, `floor(extra*0.70)` (written as
integer division by 100). -/
def claimWidthsFloor (terminalColumns : Nat) (withTime : Bool) : Widths :=
  let overhead : Int := if withTime then 13 else 10
  let available : Int := (terminalColumns : Int) - overhead
  let minTime : Nat := if withTime then 19 else 0
  let minSum : Nat := minTime + 8 + 15 + 20
  if available < (minSum : Int) then
    ⟨minTime, 8, 15, 20⟩
  else
    let extra : Nat := (available - (minSum : Int)).toNat
    ⟨if withTime then minTime + extra * 10 / 100 else 0,
     8,
     15 + extra * 20 / 100,
     20 + extra * 70 / 100⟩

/-- The width policy as amended: identical to the claim except that each
distribution term is Python's `int(extra * factor)` in IEEE-754 double
arithmetic rather than the exact floor. -/
def claimWidthsAmended (terminalColumns : Nat) (withTime : Bool) : Widths :=
  let overhead : Int := if withTime then 13 else 10
  let available : Int := (terminalColumns : Int) - overhead
  let minTime : Nat := if withTime then 19 else 0
  let minSum : Nat := minTime + 8 + 15 + 20
  if available < (minSum : Int) then
    ⟨minTime, 8, 15, 20⟩
  else
    let extra : Nat := (available - (minSum : Int)).toNat
    ⟨if withTime then minTime + pyIntMulC extra c10m 55 else 0,
     8,
     15 + pyIntMulC extra c20m 54,
     20 + pyIntMulC extra c70m 52⟩

/-! ### Table session lifecycle (print_table_row lines 253-315,
print_table_footer lines 317-327)

The console side effects are abstracted into a trace of emitted artifacts.
`print_table_row` prints the header first when `header_printed` is still
false (lines 270-272) and increments `_row_count` (line 315);
`print_table_footer` prints the bottom border.  The `close()` method and the
process-shutdown flush that invoke the footer are not under `src/` (only
`print_table_footer` and the `_active_loggers` registration are); they are
modelled from the spec. -/

/-- Events hitting one table-mode session: a row write (`log` in table mode)
or a footer request (`close()`, scope exit or the shutdown flush — per spec
§4.6 these all perform the same footer transition). -/
inductive TableOp where
  | row : TableOp
  | close : TableOp
deriving DecidableEq

/-- Observable table artifacts on the console. -/
inductive Artifact where
  | header : Artifact
  | rowBlock : Artifact
  | footer : Artifact
deriving DecidableEq

/-- Per-session table state: `header_printed` (line 51), `_row_count`
(line 54), and `footer_printed` — Modelled from the spec: the spec's
TableSession state (§3) tracks `footer_printed`, maintained by the `close()` /
shutdown-flush code that is not under `src/`. -/
structure TableState where
  headerPrinted : Bool
  footerPrinted : Bool
  rowCount : Nat
deriving DecidableEq

/-- `__init__` (lines 51, 54): header not printed, no rows. -/
def initTableState : TableState := ⟨false, false, 0⟩

/-- One step of the session.  `row` follows `print_table_row` (lines 270-272,
315): lazily print the header once, then the row block.  `close` is Modelled
from the spec (§3, §4.4, §4.6): emit the bottom border via
`print_table_footer` exactly when the header was printed and the footer was
not; idempotent afterwards; a no-op before any header. -/
def tableStep (s : TableState) : TableOp → TableState × List Artifact
  | TableOp.row =>
    if s.headerPrinted then
      (⟨true, s.footerPrinted, s.rowCount + 1⟩, [Artifact.rowBlock])
    else
      (⟨true, s.footerPrinted, s.rowCount + 1⟩, [Artifact.header, Artifact.rowBlock])
  | TableOp.close =>
    if s.headerPrinted ∧ s.footerPrinted = false then
      (⟨s.headerPrinted, true, s.rowCount⟩, [Artifact.footer])
    else (s, [])

/-- The artifact trace produced by a sequence of events from a given state. -/
def tableRun (s : TableState) : List TableOp → List Artifact
  | [] => []
  | op :: t =>
    let r := tableStep s op
    r.2 ++ tableRun r.1 t

/-- The artifact trace of a fresh table-mode session. -/
def tableTrace (ops : List TableOp) : List Artifact := tableRun initTableState ops

/-- Scans an event list for a row write followed (not necessarily
immediately) by a footer request; `hdr` seeds whether a row was already
written. -/
def rowThenClose (hdr : Bool) : List TableOp → Bool
  | [] => false
  | TableOp.row :: t => rowThenClose true t
  | TableOp.close :: t => hdr || rowThenClose hdr t

/-- Row-write test. -/
def isRowOp : TableOp → Bool
  | TableOp.row => true
  | TableOp.close => false

/-! ### `__init__` file-sink setup (lines 61-62)

`os.makedirs(os.path.dirname(self.file_path), exist_ok=True)`.
`os.path.dirname` (posix) is embedded exactly; `os.makedirs` is external OS
behaviour modelled under a permissive filesystem: it fails exactly on the
empty path (`mkdir('')` raises `FileNotFoundError`, and `exist_ok=True` does
not swallow it because `isdir('')` is false). -/

/-- Index of the last occurrence of a character. -/
def lastIdxOf (c : Char) : PyStr → Option Nat
  | [] => none
  | x :: xs =>
    match lastIdxOf c xs with
    | some j => some (j + 1)
    | none => if x = c then some 0 else none

/-- `posixpath.dirname`: everything up to the last slash, with trailing
slashes stripped unless the head is all slashes. -/
def dirname (p : PyStr) : PyStr :=
  match lastIdxOf '/' p with
  | none => []
  | some j =>
    let head := p.take (j + 1)
    if head.all (fun c => decide (c = '/')) then head
    else (head.reverse.dropWhile (fun c => decide (c = '/'))).reverse

/-- The file-sink part of `__init__` (lines 61-62): when file logging is
enabled, `os.makedirs(dirname(file_path), exist_ok=True)` runs and — under a
permissive filesystem — fails exactly when the directory part is empty. -/
def initFileSetup (logToFile : Bool) (filePath : PyStr) : Except Unit Unit :=
  if logToFile then
    (if dirname filePath = [] then Except.error () else Except.ok ())
  else Except.ok ()

/-! ### Spec-side renderer definition (for the refinement claim C9) -/

/-- The line-renderer contract exactly as claim C9 words it: `[timestamp]`
(only if withTime), `[LEVEL]` uppercased, `filename:line`, `- message`, joined
by single spaces; when `useColor` the level's color wraps the entire assembled
string with a reset suffix. -/
def lineRenderSpec (withTime useColor : Bool) (colors : List (PyStr × PyStr))
    (level message filename : PyStr) (lineNo : Nat) (timestamp : PyStr) : PyStr :=
  let plain :=
    (if withTime then ('[' :: timestamp) ++ [']'] ++ [' '] else []) ++
    ('[' :: pyUpper level) ++ [']'] ++ [' '] ++
    (filename ++ ':' :: natChars lineNo) ++ [' '] ++
    ('-' :: ' ' :: message)
  if useColor then
    ((lookupA colors (pyUpper level)).getD resetCode) ++ plain ++ resetCode
  else plain

/-- The claim-C4 exception, from the claim's words: the input is a single
unbreakable token (one maximal non-whitespace run and nothing else) longer
than the width. -/
def wsTokens (s : PyStr) : List PyStr :=
  (s.splitOnP isPySpace).filter (fun t => !t.isEmpty)

/-- "The input was a single unbreakable token longer than width". -/
def singleLongToken (s : PyStr) (width : Nat) : Bool :=
  match wsTokens s with
  | [t] => width < t.length
  | _ => false

/-! ## Claim C1: `calculate_optimal_widths` policy -/

/-- C1 counterexample: at terminal width 165 with `with_time=True`,
`extra = 90` and the code computes `int(90 * 0.7) = 62` (IEEE double
`90 * 0.7 = 62.99999999999999`), while the claim's exact
`floor(extra*0.70) = 63`; the message column gets 82, not 83. -/
theorem claim_C1_counterexample :
    calculate_optimal_widths 165 true ≠ claimWidthsFloor 165 true ∧
    (calculate_optimal_widths 165 true).message = 82 ∧
    (claimWidthsFloor 165 true).message = 83 := by decide

set_option maxRecDepth 8000 in
/-- C1 (amended): the widths policy is exactly as the claim states — overhead
13/10, the stated minimums, the minimums verbatim below the threshold —
except that the extra-space distribution is Python's `int(extra * 0.10)`,
`int(extra * 0.20)`, `int(extra * 0.70)` in IEEE-754 double arithmetic, which
first deviates from the exact floors at extra = 90 (terminal width 165 with
time, 143 without); below that the exact-floor reading agrees. -/
theorem claim_C1_widths_policy :
    (∀ (tc : Nat) (wt : Bool),
        calculate_optimal_widths tc wt = claimWidthsAmended tc wt) ∧
    (∀ tc : Nat, tc < 143 →
        calculate_optimal_widths tc true = claimWidthsFloor tc true ∧
        calculate_optimal_widths tc false = claimWidthsFloor tc false) :=
  ⟨fun _ _ => rfl, by decide⟩

/-- C1 witness: the amended policy evaluated at terminal width 120 with time
(the spec's fallback width). -/
theorem claim_C1_witness :
    calculate_optimal_widths 120 true = claimWidthsFloor 120 true :=
  (claim_C1_widths_policy.2 120 (by decide)).1

/-! ## Claim C3: `wrap_text` identity on fitting input -/

/-- C3 counterexample: the code compares the raw `len(text)`, not the visible
length.  For `text = "\x1b[34mAB\x1b[0m"` (visible length 2 ≤ 5, raw length
11) and width 5, `wrap_text` does not return `[text]` — it falls into
`textwrap.wrap` and splits the escape sequence across lines. -/
theorem claim_C3_counterexample :
    visibleLen "\x1b[34mAB\x1b[0m".toList ≤ 5 ∧
    wrap_text "\x1b[34mAB\x1b[0m".toList 5 ≠ some ["\x1b[34mAB\x1b[0m".toList] ∧
    wrap_text "\x1b[34mAB\x1b[0m".toList 5 =
      some ["\x1b[34m".toList, "AB\x1b[0".toList, "m".toList] := by decide

/-- C3 (amended): if the raw character count `len(text)` is at most `width`,
`wrap_text` returns `[text]` unchanged (the code tests `len(text) <= width`,
not the visible length). -/
theorem claim_C3_fits_unchanged (text : PyStr) (width : Nat)
    (h : text.length ≤ width) : wrap_text text width = some [text] := by
  unfold wrap_text
  rw [if_pos h]

/-- C3 witness: a two-character text at width 5. -/
theorem claim_C3_witness : wrap_text "ab".toList 5 = some ["ab".toList] :=
  claim_C3_fits_unchanged "ab".toList 5 (by decide)

/-! ## Claim C5: degenerate wrap input -/

/-- C5 counterexample: for width 0 and non-empty text, `wrap_text` does not
return a best-effort line: `len(text) <= width` fails, so
`textwrap.wrap(text, width=0, ...)` runs and raises
`ValueError: invalid width 0` (modelled as `none`). -/
theorem claim_C5_counterexample : wrap_text "a".toList 0 = none := by decide

/-- C5 (amended): for empty text `wrap_text` returns `[""]` for every width
and never fails; for width zero and non-empty text the `textwrap.wrap` call
raises `ValueError` (modelled as `none`) instead of returning a line. -/
theorem claim_C5_degenerate (text : PyStr) (width : Nat) :
    (text = [] → wrap_text text width = some [[]]) ∧
    (width = 0 → text ≠ [] → wrap_text text width = none) := by
  constructor
  · intro h
    subst h
    unfold wrap_text
    rw [if_pos (by simp)]
  · intro hw ht
    subst hw
    unfold wrap_text
    rw [if_neg (by simp [List.length_eq_zero]; exact ht), if_pos rfl]

/-- C5 witness: the empty text at width 7, and the letter `a` at width 0. -/
theorem claim_C5_witness :
    wrap_text [] 7 = some [[]] ∧ wrap_text ['a'] 0 = none :=
  ⟨(claim_C5_degenerate [] 7).1 rfl,
   (claim_C5_degenerate ['a'] 0).2 rfl (by decide)⟩

/-! ## Claim C9: line renderer assembly and all-or-nothing colorization -/

/-- C9: `build_message` assembles, in order, `[timestamp]` (only if
withTime), `[LEVEL]` uppercased, `filename:line`, `- message`, joined by
single spaces, and when `useColor` the level's color wraps the entire
assembled string with a reset suffix (`lineRenderSpec` is written from the
claim's words). -/
theorem claim_C9_line_render (withTime useColor : Bool)
    (custom : List (PyStr × PyStr)) (level message filename : PyStr)
    (lineNo : Nat) (timestamp : PyStr) :
    build_message withTime useColor (buildColors custom)
        level message filename lineNo timestamp =
      lineRenderSpec withTime useColor (buildColors custom)
        level message filename lineNo timestamp := by
  cases withTime <;> cases useColor <;>
    simp [build_message, lineRenderSpec, apply_color, joinSp]

/-! ## Claim C10: directory creation at construction -/

theorem lastIdxOf_eq_none_iff (c : Char) :
    ∀ p : PyStr, lastIdxOf c p = none ↔ ∀ x ∈ p, x ≠ c := by
  intro p
  induction p with
  | nil => simp [lastIdxOf]
  | cons x xs ih =>
    simp only [lastIdxOf]
    cases h : lastIdxOf c xs with
    | some j =>
      simp only []
      constructor
      · intro hc; exact absurd hc (by simp)
      · intro hall
        have : ∀ y ∈ xs, y ≠ c := fun y hy => hall y (List.mem_cons_of_mem _ hy)
        rw [← ih] at this
        rw [this] at h
        exact absurd h (by simp)
    | none =>
      simp only []
      by_cases hx : x = c
      · rw [if_pos hx]
        constructor
        · intro hc; exact absurd hc (by simp)
        · intro hall; exact absurd hx (hall x (List.mem_cons_self x xs))
      · rw [if_neg hx]
        constructor
        · intro _ y hy
          rcases List.mem_cons.mp hy with h1 | h1
          · rw [h1]; exact hx
          · exact (ih.mp h) y h1
        · intro _; rfl

theorem dirname_of_not_mem (p : PyStr) (h : '/' ∉ p) : dirname p = [] := by
  unfold dirname
  rw [(lastIdxOf_eq_none_iff '/' p).mpr (fun x hx hxc => h (hxc ▸ hx))]

theorem dirname_ne_nil_of_mem (p : PyStr) (h : '/' ∈ p) : dirname p ≠ [] := by
  unfold dirname
  cases hL : lastIdxOf '/' p with
  | none =>
    exact absurd rfl ((lastIdxOf_eq_none_iff '/' p).mp hL '/' h)
  | some j =>
    simp only []
    by_cases hall : (p.take (j + 1)).all (fun c => decide (c = '/')) = true
    · rw [if_pos hall]
      intro hc
      cases p with
      | nil => simp at h
      | cons x xs => simp at hc
    · rw [if_neg hall]
      intro hc
      have h2 : ((p.take (j + 1)).reverse.dropWhile (fun c => decide (c = '/'))) = [] := by
        have := congrArg List.reverse hc
        simpa using this
      rw [List.dropWhile_eq_nil_iff] at h2
      apply hall
      rw [List.all_eq_true]
      intro x hx
      exact h2 x (List.mem_reverse.mpr hx)

theorem dirname_eq_nil_iff (p : PyStr) : dirname p = [] ↔ '/' ∉ p := by
  constructor
  · intro hd hmem
    exact dirname_ne_nil_of_mem p hmem hd
  · exact dirname_of_not_mem p

/-- C10: with file logging enabled, `__init__` runs `os.makedirs` on
`os.path.dirname(file_path)`; under a permissive filesystem construction
fails exactly when `file_path` has no directory component (no slash), e.g.
the bare filename `"app.log"`, because `dirname` is then empty and
`mkdir('')` raises. -/
theorem claim_C10_construction (filePath : PyStr) :
    initFileSetup true filePath = Except.error () ↔ '/' ∉ filePath := by
  unfold initFileSetup
  rw [if_pos rfl]
  constructor
  · intro h
    by_cases hd : dirname filePath = []
    · exact (dirname_eq_nil_iff filePath).mp hd
    · rw [if_neg hd] at h
      exact absurd h (by simp)
  · intro h
    rw [if_pos ((dirname_eq_nil_iff filePath).mpr h)]

/-- C10 witness: constructing with the bare filename `app.log` fails, and
with `logs/app.log` it does not. -/
theorem claim_C10_witness :
    initFileSetup true "app.log".toList = Except.error () ∧
    initFileSetup true "logs/app.log".toList ≠ Except.error () := by
  constructor
  · exact (claim_C10_construction "app.log".toList).mpr (by decide)
  · intro h
    have := (claim_C10_construction "logs/app.log".toList).mp h
    exact this (by decide)

/-! ## Claims C2 and C8: table header/footer lifecycle -/

theorem tableRun_footer_count : ∀ (ops : List TableOp) (s : TableState),
    (tableRun s ops).count Artifact.footer =
      (if s.footerPrinted = true then 0
       else if rowThenClose s.headerPrinted ops = true then 1 else 0) := by
  intro ops
  induction ops with
  | nil =>
    intro s
    simp [tableRun, rowThenClose]
  | cons op t ih =>
    intro s
    cases op with
    | row =>
      simp only [tableRun, tableStep]
      split
      · rw [List.count_append, ih]
        simp [rowThenClose]
      · rw [List.count_append, ih]
        simp [rowThenClose]
    | close =>
      simp only [tableRun, tableStep]
      by_cases hg : s.headerPrinted = true ∧ s.footerPrinted = false
      · rw [if_pos hg]
        rw [List.count_append, ih]
        simp [rowThenClose, hg.1, hg.2]
      · rw [if_neg hg]
        rw [List.count_append, ih]
        simp only [List.count_nil, Nat.zero_add]
        by_cases hf : s.footerPrinted = true
        · simp [hf]
        · have hh : s.headerPrinted = false := by
            cases hhp : s.headerPrinted
            · rfl
            · exact absurd ⟨hhp, by simpa using hf⟩ hg
          simp [hf, hh, rowThenClose]

/-- C2: in table mode the bottom-border footer appears in the session trace
exactly once when at least one row write precedes some footer request
(`close()`/shutdown flush), and zero times otherwise — in particular it is
never emitted twice no matter how many times `close()` is invoked. -/
theorem claim_C2_footer_once (ops : List TableOp) :
    (tableTrace ops).count Artifact.footer =
      (if rowThenClose false ops = true then 1 else 0) := by
  have := tableRun_footer_count ops initTableState
  simpa [initTableState, tableTrace] using this

theorem tableRun_header_count : ∀ (ops : List TableOp) (s : TableState),
    (tableRun s ops).count Artifact.header =
      (if s.headerPrinted = true then 0
       else if ops.any isRowOp = true then 1 else 0) := by
  intro ops
  induction ops with
  | nil =>
    intro s
    simp [tableRun]
  | cons op t ih =>
    intro s
    cases op with
    | row =>
      simp only [tableRun, tableStep]
      by_cases hh : s.headerPrinted = true
      · rw [if_pos hh, List.count_append, ih]
        simp [hh, isRowOp]
      · rw [if_neg hh, List.count_append, ih]
        simp at hh
        simp [hh, isRowOp]
    | close =>
      simp only [tableRun, tableStep]
      by_cases hg : s.headerPrinted = true ∧ s.footerPrinted = false
      · rw [if_pos hg, List.count_append, ih]
        simp [hg.1, isRowOp]
      · rw [if_neg hg, List.count_append, ih]
        simp [isRowOp]

theorem tableRun_nil_of_no_row : ∀ (ops : List TableOp) (s : TableState),
    s.headerPrinted = false → ops.any isRowOp = false → tableRun s ops = [] := by
  intro ops
  induction ops with
  | nil => intro s _ _; rfl
  | cons op t ih =>
    intro s hh ha
    cases op with
    | row => simp [isRowOp] at ha
    | close =>
      simp only [tableRun, tableStep]
      rw [if_neg (by simp [hh])]
      simp [isRowOp] at ha
      simpa using ih s hh (by simpa [isRowOp] using ha)

/-- C8: per session the header appears in the trace exactly once when some
row is written and never otherwise — lazily (the initial state has emitted
nothing; the header accompanies the first row write, never construction) —
and with zero rows the trace is completely empty: no header and no footer. -/
theorem claim_C8_header_lazy (ops : List TableOp) :
    (tableTrace ops).count Artifact.header =
      (if ops.any isRowOp = true then 1 else 0) ∧
    (tableTrace ops = [] ↔ ops.any isRowOp = false) := by
  have hc : (tableTrace ops).count Artifact.header =
      (if ops.any isRowOp = true then 1 else 0) := by
    have h0 := tableRun_header_count ops initTableState
    simpa [tableTrace, show initTableState.headerPrinted = false from rfl]
      using h0
  refine ⟨hc, ?_, ?_⟩
  · intro hnil
    by_cases ha : ops.any isRowOp = true
    · exfalso
      rw [hnil] at hc
      simp [ha] at hc
    · simpa using ha
  · intro ha
    exact tableRun_nil_of_no_row ops initTableState rfl ha

/-- C2 witness: one row then three `close()` calls — the footer appears
exactly once.  (Instantiates the C2 theorem at a concrete event list.) -/
theorem claim_C2_witness :
    (tableTrace [TableOp.row, TableOp.close, TableOp.close,
        TableOp.close]).count Artifact.footer = 1 := by
  rw [claim_C2_footer_once]
  decide

/-- C8 witness: with only `close()` events (zero rows) the trace is empty. -/
theorem claim_C8_witness :
    tableTrace [TableOp.close, TableOp.close] = [] :=
  (claim_C8_header_lazy [TableOp.close, TableOp.close]).2.mpr (by decide)

/-! ## Claim C7: colorization preserves visible length -/

theorem ansiTail_sgr2 (d1 d2 : Char) (h1 : isCsiParam d1 = true)
    (h2 : isCsiParam d2 = true) (s : PyStr) :
    ansiTail ('[' :: d1 :: d2 :: 'm' :: s) = some s := by
  simp only [ansiTail]
  rw [if_neg (by decide)]
  simp only [if_true]
  rw [List.dropWhile_cons_of_pos h1, List.dropWhile_cons_of_pos h2,
      List.dropWhile_cons_of_neg (by decide),
      List.dropWhile_cons_of_neg (by decide)]
  simp only []
  rw [if_pos (by decide)]

theorem ansiTail_sgr1 (d1 : Char) (h1 : isCsiParam d1 = true) (s : PyStr) :
    ansiTail ('[' :: d1 :: 'm' :: s) = some s := by
  simp only [ansiTail]
  rw [if_neg (by decide)]
  simp only [if_true]
  rw [List.dropWhile_cons_of_pos h1,
      List.dropWhile_cons_of_neg (by decide),
      List.dropWhile_cons_of_neg (by decide)]
  simp only []
  rw [if_pos (by decide)]

/-- Every table color code is consumed as a whole by the escape-stripping
scanner, whatever follows it: the trailing `m` is a final byte, so the greedy
parameter run cannot extend into the continuation. -/
theorem stripAnsi_code_append (code : PyStr) (hc : code ∈ colorCodes)
    (s : PyStr) : stripAnsi (code ++ s) = stripAnsi s := by
  have hred : ∀ (d1 d2 : Char), isCsiParam d1 = true → isCsiParam d2 = true →
      stripAnsi (escChar :: '[' :: d1 :: d2 :: 'm' :: s) = stripAnsi s := by
    intro d1 d2 h1 h2
    rw [stripAnsi_cons, if_pos rfl, ansiTail_sgr2 d1 d2 h1 h2]
  simp only [colorCodes, COLOR_MAP, List.map, List.mem_cons,
    List.not_mem_nil, or_false] at hc
  rcases hc with h | h | h | h | h | h | h <;> subst h
  · exact hred '3' '1' (by decide) (by decide)
  · exact hred '3' '2' (by decide) (by decide)
  · exact hred '3' '3' (by decide) (by decide)
  · exact hred '3' '4' (by decide) (by decide)
  · exact hred '3' '5' (by decide) (by decide)
  · exact hred '3' '6' (by decide) (by decide)
  · rw [show ("\x1b[0m".toList : PyStr) ++ s = escChar :: '[' :: '0' :: 'm' :: s from rfl,
      stripAnsi_cons, if_pos rfl, ansiTail_sgr1 '0' (by decide)]

/-- `dropWhile` over an append, with a propositional case split. -/
theorem dropWhile_append_cases (p : Char → Bool) (l1 l2 : List Char) :
    List.dropWhile p (l1 ++ l2) =
      (if List.dropWhile p l1 = [] then List.dropWhile p l2
       else List.dropWhile p l1 ++ l2) := by
  rw [List.dropWhile_append]
  by_cases h : List.dropWhile p l1 = []
  · rw [if_pos h, if_pos (by rw [h]; rfl)]
  · rw [if_neg h, if_neg (by simpa [List.isEmpty_iff] using h)]

/-- Appending the reset code cannot complete a partial escape sequence from
the text: the escape matcher never succeeds across the boundary, because its
byte classes all exclude ESC. -/
theorem ansiTail_append_reset (t : PyStr) :
    ansiTail (t ++ resetCode) = (ansiTail t).map (fun r => r ++ resetCode) := by
  cases t with
  | nil => decide
  | cons x xs =>
    simp only [ansiTail, List.cons_append]
    by_cases hx : isEscSingle x = true
    · rw [if_pos hx, if_pos hx]; rfl
    · rw [if_neg hx, if_neg hx]
      by_cases hb : x = '['
      · rw [if_pos hb, if_pos hb]
        rw [dropWhile_append_cases]
        by_cases hu : List.dropWhile isCsiParam xs = []
        · rw [if_pos hu, hu]
          rw [show List.dropWhile isCsiParam resetCode = resetCode from by decide]
          rw [show List.dropWhile isCsiInter resetCode = resetCode from by decide]
          rfl
        · rw [if_neg hu]
          rw [dropWhile_append_cases]
          by_cases hw : List.dropWhile isCsiInter (List.dropWhile isCsiParam xs) = []
          · rw [if_pos hw, hw]
            rw [show List.dropWhile isCsiInter resetCode = resetCode from by decide]
            rfl
          · rw [if_neg hw]
            cases hw2 : List.dropWhile isCsiInter (List.dropWhile isCsiParam xs) with
            | nil => exact absurd hw2 hw
            | cons f fs =>
              rw [show ((f :: fs) ++ resetCode) = f :: (fs ++ resetCode) from rfl]
              simp only []
              by_cases hf : isCsiFinal f = true
              · rw [if_pos hf, if_pos hf]; rfl
              · rw [if_neg hf, if_neg hf]; rfl
      · rw [if_neg hb, if_neg hb]; rfl

/-- Appending the reset code adds no visible characters and cannot interact
with any prefix of the text. -/
theorem stripAnsi_append_reset (s : PyStr) :
    stripAnsi (s ++ resetCode) = stripAnsi s := by
  have H : ∀ (n : Nat) (s : PyStr), s.length < n →
      stripAnsi (s ++ resetCode) = stripAnsi s := by
    intro n
    induction n with
    | zero => intro s h; omega
    | succ n ih =>
      intro s hs
      match s with
      | [] => decide
      | c :: t =>
        rw [show ((c :: t) ++ resetCode) = c :: (t ++ resetCode) from rfl]
        rw [stripAnsi_cons, stripAnsi_cons]
        by_cases hc : c = escChar
        · rw [if_pos hc, if_pos hc, ansiTail_append_reset t]
          cases hA : ansiTail t with
          | some r =>
            show stripAnsi (r ++ resetCode) = stripAnsi r
            exact ih r (by have := ansiTail_lt t r hA; simp at hs; omega)
          | none =>
            show c :: stripAnsi (t ++ resetCode) = c :: stripAnsi t
            rw [ih t (by simp at hs; omega)]
        · rw [if_neg hc, if_neg hc, ih t (by simp at hs; omega)]
  exact H (s.length + 1) s (by omega)

theorem lookupA_mem_values (m : List (PyStr × PyStr)) (k v : PyStr)
    (h : lookupA m k = some v) : v ∈ m.map Prod.snd := by
  induction m with
  | nil => simp [lookupA] at h
  | cons kv t ih =>
    match kv with
    | (k2, v2) =>
      simp only [lookupA] at h
      by_cases hk : k2 = k
      · rw [if_pos hk] at h
        cases h
        simp
      · rw [if_neg hk] at h
        simp only [List.map, List.mem_cons]
        exact Or.inr (ih h)

theorem setA_snd_mem (S : List PyStr) :
    ∀ (m : List (PyStr × PyStr)) (k v : PyStr),
      (∀ kv ∈ m, kv.2 ∈ S) → v ∈ S → ∀ kv ∈ setA m k v, kv.2 ∈ S := by
  intro m
  induction m with
  | nil =>
    intro k v _ hv kv hkv
    simp [setA] at hkv
    rw [hkv]
    exact hv
  | cons e t ih =>
    intro k v hm hv kv hkv
    match e with
    | (k2, v2) =>
      simp only [setA] at hkv
      by_cases hk : k2 = k
      · rw [if_pos hk] at hkv
        rcases List.mem_cons.mp hkv with h1 | h1
        · rw [h1]; exact hv
        · exact hm kv (List.mem_cons_of_mem _ h1)
      · rw [if_neg hk] at hkv
        rcases List.mem_cons.mp hkv with h1 | h1
        · rw [h1]; exact hm (k2, v2) (List.mem_cons_self _ _)
        · exact ih k v (fun x hx => hm x (List.mem_cons_of_mem _ hx)) hv kv h1

theorem buildColors_snd_mem (custom : List (PyStr × PyStr)) :
    ∀ kv ∈ buildColors custom, kv.2 ∈ colorCodes := by
  have H : ∀ (cs : List (PyStr × PyStr)) (m : List (PyStr × PyStr)),
      (∀ kv ∈ m, kv.2 ∈ colorCodes) →
      ∀ kv ∈ cs.foldl
        (fun m kv =>
          match lookupA COLOR_MAP (pyLower kv.2) with
          | some code => setA m (pyUpper kv.1) code
          | none => m) m, kv.2 ∈ colorCodes := by
    intro cs
    induction cs with
    | nil => intro m hm kv hkv; exact hm kv hkv
    | cons c t ih =>
      intro m hm kv hkv
      simp only [List.foldl_cons] at hkv
      cases hL : lookupA COLOR_MAP (pyLower c.2) with
      | some code =>
        rw [hL] at hkv
        exact ih _ (setA_snd_mem colorCodes m (pyUpper c.1) code hm
          (lookupA_mem_values COLOR_MAP _ code hL) ) kv hkv
      | none =>
        rw [hL] at hkv
        exact ih m hm kv hkv
  intro kv hkv
  exact H custom DEFAULT_COLORS (by decide) kv hkv

/-- The level color looked up by `apply_color` is always one of the table's
codes (the reset code being the default). -/
theorem lookup_colors_mem (custom : List (PyStr × PyStr)) (k : PyStr) :
    (lookupA (buildColors custom) k).getD resetCode ∈ colorCodes := by
  cases hL : lookupA (buildColors custom) k with
  | some v =>
    simp only [Option.getD_some]
    have := lookupA_mem_values (buildColors custom) k v hL
    rcases List.mem_map.mp this with ⟨kv, hkv, hsnd⟩
    rw [← hsnd]
    exact buildColors_snd_mem custom kv hkv
  | none =>
    simp only [Option.getD_none]
    decide

/-- C7 counterexample: `stripAnsi` is not idempotent, so the claimed identity
with the extra inner strip fails.  For `text = "\x1b\x1b[31m[31m"` the first
strip removes the inner complete escape and glues a *new* complete escape
together: `visibleLength(text) = 5`, but stripping the colorized line once
leaves `"\x1b[31m"`, whose visible length is 0. -/
theorem claim_C7_counterexample :
    visibleLen (stripAnsi (apply_color true (buildColors [])
        "INFO".toList "\x1b\x1b[31m[31m".toList)) ≠
      visibleLen "\x1b\x1b[31m[31m".toList := by decide

/-- C7 (amended): for all text, the visible length of the colorized text
equals the visible length of the original —
`visibleLength(colorize(text)) = visibleLength(text)` (the claim's extra
inner `stripAnsi` is dropped: `stripAnsi` is not idempotent on malformed
escape input, which is what the counterexample exploits). -/
theorem claim_C7_colorize_visible_len (custom : List (PyStr × PyStr))
    (level text : PyStr) :
    visibleLen (apply_color true (buildColors custom) level text) =
      visibleLen text := by
  unfold apply_color
  rw [if_neg (by simp)]
  unfold visibleLen
  rw [List.append_assoc,
    stripAnsi_code_append _ (lookup_colors_mem custom (pyUpper level)),
    stripAnsi_append_reset]

/-! ## Claim C6: the file sink line carries no escape bytes -/

theorem digitChar_ne_esc (d : Nat) : digitChar d ≠ escChar := by
  unfold digitChar
  split_ifs <;> decide

theorem natCharsCore_no_esc : ∀ (fuel n : Nat), escChar ∉ natCharsCore fuel n := by
  intro fuel
  induction fuel with
  | zero => intro n; simp [natCharsCore]
  | succ fuel ih =>
    intro n
    simp only [natCharsCore]
    split
    · intro hm
      rcases List.mem_singleton.mp hm with h
      exact digitChar_ne_esc n h.symm
    · intro hm
      rcases List.mem_append.mp hm with h | h
      · exact ih (n / 10) h
      · exact digitChar_ne_esc (n % 10) (List.mem_singleton.mp h).symm

theorem toUpper_ne_esc (c : Char) (h : c ≠ escChar) : Char.toUpper c ≠ escChar := by
  unfold Char.toUpper
  simp only []
  by_cases hc : c.toNat ≥ 97 ∧ c.toNat ≤ 122
  · rw [if_pos hc]
    intro hEq
    have hv : Nat.isValidChar (c.toNat - 32) := by
      left
      omega
    have h1 : (Char.ofNat (c.toNat - 32)).toNat = c.toNat - 32 := by
      unfold Char.ofNat
      rw [dif_pos hv]
      unfold Char.ofNatAux Char.toNat
      rfl
    rw [hEq] at h1
    have h2 : escChar.toNat = 27 := by decide
    omega
  · rw [if_neg hc]
    exact h

theorem pyUpper_no_esc (level : PyStr) (h : escChar ∉ level) :
    escChar ∉ pyUpper level := by
  intro hm
  rcases List.mem_map.mp hm with ⟨c, hc, hEq⟩
  exact toUpper_ne_esc c (fun hce => h (hce ▸ hc)) hEq

theorem joinSp_no_esc : ∀ (l : List PyStr), (∀ x ∈ l, escChar ∉ x) →
    escChar ∉ joinSp l := by
  intro l
  induction l with
  | nil => intro _; simp [joinSp]
  | cons x t ih =>
    intro h
    cases t with
    | nil =>
      simpa [joinSp] using h x (List.mem_cons_self _ _)
    | cons y tt =>
      show escChar ∉ x ++ ' ' :: joinSp (y :: tt)
      intro hm
      rcases List.mem_append.mp hm with h1 | h1
      · exact h x (List.mem_cons_self _ _) h1
      · rcases List.mem_cons.mp h1 with h2 | h2
        · exact absurd h2 (by decide)
        · exact ih (fun z hz => h z (List.mem_cons_of_mem _ hz)) h2

/-- The assembled (pre-color) log line contains no ESC when the level,
message, filename and timestamp do not. -/
theorem plain_no_esc (withTime : Bool) (level message filename timestamp : PyStr)
    (lineNo : Nat) (hl : escChar ∉ level) (hm : escChar ∉ message)
    (hf : escChar ∉ filename) (ht : escChar ∉ timestamp) :
    escChar ∉ joinSp ((if withTime then [('[' :: timestamp) ++ [']']] else []) ++
      [('[' :: pyUpper level) ++ [']'],
       filename ++ ':' :: natChars lineNo,
       '-' :: ' ' :: message]) := by
  apply joinSp_no_esc
  intro x hx
  have hts : escChar ∉ ('[' :: timestamp) ++ [']'] := by
    intro hmem
    rcases List.mem_append.mp hmem with h1 | h1
    · rcases List.mem_cons.mp h1 with h2 | h2
      · exact absurd h2 (by decide)
      · exact ht h2
    · exact absurd (List.mem_singleton.mp h1) (by decide)
  have hlv : escChar ∉ ('[' :: pyUpper level) ++ [']'] := by
    intro hmem
    rcases List.mem_append.mp hmem with h1 | h1
    · rcases List.mem_cons.mp h1 with h2 | h2
      · exact absurd h2 (by decide)
      · exact pyUpper_no_esc level hl h2
    · exact absurd (List.mem_singleton.mp h1) (by decide)
  have hfl : escChar ∉ filename ++ ':' :: natChars lineNo := by
    intro hmem
    rcases List.mem_append.mp hmem with h1 | h1
    · exact hf h1
    · rcases List.mem_cons.mp h1 with h2 | h2
      · exact absurd h2 (by decide)
      · exact natCharsCore_no_esc _ _ h2
  have hms : escChar ∉ '-' :: ' ' :: message := by
    intro hmem
    rcases List.mem_cons.mp hmem with h1 | h1
    · exact absurd h1 (by decide)
    · rcases List.mem_cons.mp h1 with h2 | h2
      · exact absurd h2 (by decide)
      · exact hm h2
  cases withTime with
  | true =>
    rw [if_pos rfl] at hx
    simp only [List.cons_append, List.nil_append] at hx
    rcases List.mem_cons.mp hx with h1 | h1
    · rw [h1]; exact hts
    · rcases List.mem_cons.mp h1 with h2 | h2
      · rw [h2]; exact hlv
      · rcases List.mem_cons.mp h2 with h3 | h3
        · rw [h3]; exact hfl
        · rcases List.mem_cons.mp h3 with h4 | h4
          · rw [h4]; exact hms
          · exact absurd h4 (List.not_mem_nil x)
  | false =>
    rw [if_neg (by decide)] at hx
    simp only [List.nil_append] at hx
    rcases List.mem_cons.mp hx with h2 | h2
    · rw [h2]; exact hlv
    · rcases List.mem_cons.mp h2 with h3 | h3
      · rw [h3]; exact hfl
      · rcases List.mem_cons.mp h3 with h4 | h4
        · rw [h4]; exact hms
        · exact absurd h4 (List.not_mem_nil x)

theorem head_ne_esc_no_match (pat : PyStr) (hp : pat.head? = some escChar)
    (c : Char) (cs : PyStr) (hc : c ≠ escChar) :
    ¬ (pat ≠ [] ∧ pat.isPrefixOf (c :: cs) = true) := by
  rintro ⟨hne, hpre⟩
  match pat, hp with
  | p :: pt, hp =>
    have hpe : p = escChar := by simpa using hp
    have h2 := List.isPrefixOf_iff_prefix.mp hpre
    have hce := (List.cons_prefix_cons.mp h2).1
    exact hc (by rw [← hce, hpe])

theorem pyReplace_no_esc (pat : PyStr) (hp : pat.head? = some escChar) :
    ∀ s : PyStr, escChar ∉ s → pyReplace s pat [] = s := by
  intro s
  induction s with
  | nil => intro _; rfl
  | cons c cs ih =>
    intro hs
    rw [pyReplace_cons, if_neg (head_ne_esc_no_match pat hp c cs
      (fun h => hs (by rw [h]; exact List.mem_cons_self _ _)))]
    rw [ih (fun h => hs (List.mem_cons_of_mem _ h))]

theorem pyReplace_append_left (pat y : PyStr) (hp : pat.head? = some escChar) :
    ∀ x : PyStr, escChar ∉ x →
      pyReplace (x ++ y) pat [] = x ++ pyReplace y pat [] := by
  intro x
  induction x with
  | nil => intro _; rfl
  | cons c xs ih =>
    intro hx
    rw [List.cons_append]
    rw [pyReplace_cons, if_neg (head_ne_esc_no_match pat hp c (xs ++ y)
      (fun h => hx (by rw [h]; exact List.mem_cons_self _ _)))]
    rw [ih (fun h => hx (List.mem_cons_of_mem _ h))]
    rfl

theorem pyReplace_self_prefix (pat y : PyStr) (hne : pat ≠ []) :
    pyReplace (pat ++ y) pat [] = pyReplace y pat [] := by
  match pat, hne with
  | p :: pt, hne =>
    rw [List.cons_append, pyReplace_cons]
    rw [if_pos ⟨hne, List.isPrefixOf_iff_prefix.mpr (by
      rw [← List.cons_append]; exact List.prefix_append _ _)⟩]
    rw [show (p :: (pt ++ y)) = (p :: pt) ++ y from rfl]
    rw [show ((p :: pt) ++ y).drop (p :: pt).length = y from List.drop_left _ _]
    simp

theorem prefix_split_left (p a z : List Char) (h : p <+: a ++ z)
    (hl : p.length ≤ a.length) : p <+: a := by
  rcases h with ⟨t, ht⟩
  have h2 := congrArg (List.take p.length) ht
  rw [List.take_append_of_le_length hl] at h2
  rw [List.take_left] at h2
  rw [h2]
  exact List.take_prefix _ _

theorem prefix_split_right (p a z : List Char) (h : p <+: a ++ z)
    (hl : a.length ≤ p.length) : a <+: p := by
  rcases h with ⟨t, ht⟩
  have h2 := congrArg (List.take a.length) ht
  rw [List.take_left] at h2
  rw [List.take_append_of_le_length hl] at h2
  rw [← h2]
  exact List.take_prefix _ _

theorem pyReplace_code_end (pat b : PyStr) (hne : pat ≠ [])
    (hp : pat.head? = some escChar)
    (hb : b = [] ∨ (b.head? = some escChar ∧ escChar ∉ b.tail))
    (hpb : pat <+: b → pat = b) :
    pyReplace b pat [] = if b = pat then [] else b := by
  rcases hb with hb | hb
  · subst hb
    rw [if_neg (fun h => hne h.symm)]
    rfl
  · match b, hb with
    | c :: bt, hb =>
      have hce : c = escChar := by simpa using hb.1
      have hbt : escChar ∉ bt := by simpa using hb.2
      by_cases hpre : pat <+: (c :: bt)
      · have he := hpb hpre
        subst he
        rw [if_pos rfl]
        have h0 := pyReplace_self_prefix _ [] hne
        rw [List.append_nil, pyReplace_nil] at h0
        exact h0
      · rw [if_neg (fun h => hpre (by rw [h]))]
        rw [pyReplace_cons, if_neg (fun hc =>
          hpre (List.isPrefixOf_iff_prefix.mp hc.2))]
        rw [pyReplace_no_esc pat hp bt hbt]

theorem pyReplace_M (pat a b body : PyStr) (hne : pat ≠ [])
    (hp : pat.head? = some escChar)
    (ha : a = [] ∨ (a.head? = some escChar ∧ escChar ∉ a.tail))
    (hb : b = [] ∨ (b.head? = some escChar ∧ escChar ∉ b.tail))
    (hbody : escChar ∉ body)
    (hpa : pat <+: a → pat = a)
    (hap : a ≠ [] → a <+: pat → a = pat)
    (hpb : pat <+: b → pat = b) :
    pyReplace (a ++ body ++ b) pat [] =
      (if a = pat then [] else a) ++ body ++ (if b = pat then [] else b) := by
  rcases ha with ha | ha
  · subst ha
    rw [if_neg (fun h => hne h.symm)]
    simp only [List.nil_append]
    rw [pyReplace_append_left pat b hp body hbody,
      pyReplace_code_end pat b hne hp hb hpb]
  · match a, ha with
    | c :: at2, ha =>
      have hce : c = escChar := by simpa using ha.1
      have hat : escChar ∉ at2 := by simpa using ha.2
      by_cases hae : (c :: at2) = pat
      · subst hae
        rw [if_pos rfl]
        rw [List.append_assoc, pyReplace_self_prefix _ _ (by simp)]
        rw [pyReplace_append_left _ b hp body hbody]
        rw [pyReplace_code_end _ b (by simp) hp hb hpb]
        simp
      · rw [if_neg hae]
        have hnp : ¬ pat.isPrefixOf ((c :: at2) ++ body ++ b) = true := by
          intro hc
          have hpre := List.isPrefixOf_iff_prefix.mp hc
          rw [List.append_assoc] at hpre
          by_cases hlen : pat.length ≤ (c :: at2).length
          · have := prefix_split_left pat (c :: at2) _ hpre hlen
            exact hae (hpa this).symm
          · have := prefix_split_right pat (c :: at2) _ hpre (by omega)
            exact hae (hap (by simp) this)
        have hshape : (c :: at2) ++ body ++ b = c :: (at2 ++ body ++ b) := by simp
        rw [hshape, pyReplace_cons, if_neg (fun hc2 => hnp (by
          rw [hshape]; exact hc2.2))]
        rw [show at2 ++ body ++ b = (at2 ++ body) ++ b from by simp,
          pyReplace_append_left pat b hp (at2 ++ body)
            (by intro hmem; rcases List.mem_append.mp hmem with h1 | h1
                · exact hat h1
                · exact hbody h1),
          pyReplace_code_end pat b hne hp hb hpb]
        simp

/-- Applying the replacement passes in sequence: each listed code is removed
from the (possibly empty) color frame around an escape-free body. -/
def stripSeq : List PyStr → PyStr → PyStr
  | [], x => x
  | p :: ps, x => stripSeq ps (if x = p then [] else x)

theorem stripSeq_nil : ∀ L : List PyStr, (∀ p ∈ L, p ≠ []) →
    stripSeq L [] = [] := by
  intro L
  induction L with
  | nil => intro _; rfl
  | cons p ps ih =>
    intro h
    show stripSeq ps (if [] = p then [] else []) = []
    rw [if_neg (fun hc => h p (List.mem_cons_self _ _) hc.symm)]
    exact ih (fun q hq => h q (List.mem_cons_of_mem _ hq))

theorem stripSeq_mem : ∀ (L : List PyStr) (x : PyStr), x ∈ L →
    (∀ p ∈ L, p ≠ []) → stripSeq L x = [] := by
  intro L
  induction L with
  | nil => intro x hx; simp at hx
  | cons p ps ih =>
    intro x hx h
    show stripSeq ps (if x = p then [] else x) = []
    by_cases hxp : x = p
    · rw [if_pos hxp]
      exact stripSeq_nil ps (fun q hq => h q (List.mem_cons_of_mem _ hq))
    · rw [if_neg hxp]
      rcases List.mem_cons.mp hx with h1 | h1
      · exact absurd h1 hxp
      · exact ih x h1 (fun q hq => h q (List.mem_cons_of_mem _ hq))

theorem fold_replace : ∀ (L : List PyStr) (a b body : PyStr),
    (∀ p ∈ L, p ∈ colorCodes) →
    (a = [] ∨ a ∈ colorCodes) → (b = [] ∨ b ∈ colorCodes) →
    escChar ∉ body →
    L.foldl (fun acc code => pyReplace acc code []) (a ++ body ++ b) =
      stripSeq L a ++ body ++ stripSeq L b := by
  have factG : ∀ p ∈ colorCodes, p ≠ [] ∧ p.head? = some escChar ∧
      escChar ∉ p.tail := by decide
  have factP : ∀ p ∈ colorCodes, ∀ x ∈ colorCodes, p <+: x → p = x := by decide
  intro L
  induction L with
  | nil => intro a b body _ _ _ _; rfl
  | cons p ps ih =>
    intro a b body hL ha hb hbody
    have hpc : p ∈ colorCodes := hL p (List.mem_cons_self _ _)
    have hg := factG p hpc
    have hstep : pyReplace (a ++ body ++ b) p [] =
        (if a = p then [] else a) ++ body ++ (if b = p then [] else b) := by
      apply pyReplace_M p a b body hg.1 hg.2.1
      · rcases ha with ha | ha
        · exact Or.inl ha
        · exact Or.inr ⟨(factG a ha).2.1, (factG a ha).2.2⟩
      · rcases hb with hb | hb
        · exact Or.inl hb
        · exact Or.inr ⟨(factG b hb).2.1, (factG b hb).2.2⟩
      · exact hbody
      · intro hpre
        rcases ha with ha | ha
        · rw [ha] at hpre
          exact absurd (List.prefix_nil.mp hpre) hg.1
        · exact factP p hpc a ha hpre
      · intro hane hpre
        rcases ha with ha | ha
        · exact absurd ha hane
        · exact factP a ha p hpc hpre
      · intro hpre
        rcases hb with hb | hb
        · rw [hb] at hpre
          exact absurd (List.prefix_nil.mp hpre) hg.1
        · exact factP p hpc b hb hpre
    show List.foldl _ (pyReplace (a ++ body ++ b) p []) ps = _
    rw [hstep]
    rw [ih (if a = p then [] else a) (if b = p then [] else b) body
      (fun q hq => hL q (List.mem_cons_of_mem _ hq))
      (by by_cases h : a = p
          · rw [if_pos h]; exact Or.inl rfl
          · rw [if_neg h]; exact ha)
      (by by_cases h : b = p
          · rw [if_pos h]; exact Or.inl rfl
          · rw [if_neg h]; exact hb)
      hbody]
    rfl

/-- C6 counterexample: with file logging, `use_color=true`, level `INFO` and
the message `"\x1b[95mX"` (an SGR code not in the color table), the line
written to the file still contains a raw ESC byte: `log` strips only the
codes of `COLOR_MAP`, and the claim quantifies over every message. -/
theorem claim_C6_counterexample :
    escChar ∈ fileLine false true [] "INFO".toList "\x1b[95mX".toList
      "a.py".toList 3 [] := by decide

/-- C6 (amended): for every configuration and every level, message, filename
and timestamp that contain no ESC character themselves, the line appended to
the file contains no escape bytes even when `use_color=true`: the color frame
added by `apply_color` is always a `COLOR_MAP` code plus the reset code, and
the replacement loop removes both.  (Escape bytes already present inside the
message are not removed unless they are exactly color-table codes — the
counterexample.) -/
theorem claim_C6_file_no_escape (withTime useColor : Bool)
    (custom : List (PyStr × PyStr)) (level message filename timestamp : PyStr)
    (lineNo : Nat) (hl : escChar ∉ level) (hm : escChar ∉ message)
    (hf : escChar ∉ filename) (ht : escChar ∉ timestamp) :
    escChar ∉
      fileLine withTime useColor custom level message filename lineNo timestamp := by
  have hplain := plain_no_esc withTime level message filename timestamp lineNo
    hl hm hf ht
  unfold fileLine build_message cleanLine apply_color
  by_cases hu : useColor = false
  · rw [if_pos hu]
    intro hmem
    have hshape : joinSp ((if withTime then [('[' :: timestamp) ++ [']']] else []) ++
        [('[' :: pyUpper level) ++ [']'],
         filename ++ ':' :: natChars lineNo,
         '-' :: ' ' :: message]) =
        ([] : PyStr) ++ joinSp ((if withTime then [('[' :: timestamp) ++ [']']] else []) ++
        [('[' :: pyUpper level) ++ [']'],
         filename ++ ':' :: natChars lineNo,
         '-' :: ' ' :: message]) ++ ([] : PyStr) := by simp
    rw [hshape, fold_replace colorCodes [] [] _ (fun p hp => hp)
      (Or.inl rfl) (Or.inl rfl) hplain] at hmem
    rw [stripSeq_nil colorCodes (by decide)] at hmem
    simp at hmem
    exact hplain hmem
  · rw [if_neg hu]
    intro hmem
    rw [fold_replace colorCodes _ resetCode _ (fun p hp => hp)
      (Or.inr (lookup_colors_mem custom (pyUpper level)))
      (Or.inr (by decide)) hplain] at hmem
    rw [stripSeq_mem colorCodes _ (lookup_colors_mem custom (pyUpper level))
      (by decide)] at hmem
    rw [stripSeq_mem colorCodes resetCode (by decide) (by decide)] at hmem
    simp at hmem
    exact hplain hmem

/-- C6 witness: a fully concrete configuration — timestamp, level INFO,
message, filename — produces an escape-free file line. -/
theorem claim_C6_witness :
    escChar ∉ fileLine true true [] "INFO".toList "hello world".toList
      "app.py".toList 42 "2024-01-01 00:00:00".toList :=
  claim_C6_file_no_escape true true [] "INFO".toList "hello world".toList
    "app.py".toList "2024-01-01 00:00:00".toList 42
    (by decide) (by decide) (by decide) (by decide)

/-! ## Claim C4: wrapped lines respect the width

The plan: (1) every line assembled by `buildLine` has joined length at most
`width`; (2) the loop preserves the number of non-whitespace characters, so an
empty `textwrap` result forces an all-whitespace input — which is exactly when
`wrap_text` falls back to the original over-long text as a single line. -/

/-- Non-whitespace character count over a chunk list. -/
def countNWL (l : List PyStr) : Nat := (l.map countNW).sum

/-- `measure2` drives the fuel adequacy of `wrapLoop`: total characters plus
number of chunks. -/
def measure2 (l : List PyStr) : Nat := sumLen l + l.length

theorem countNW_append (a b : PyStr) : countNW (a ++ b) = countNW a + countNW b := by
  unfold countNW
  rw [List.filter_append, List.length_append]

theorem countNW_eq_zero_iff (s : PyStr) : countNW s = 0 ↔ s.all isPySpace = true := by
  unfold countNW
  rw [List.length_eq_zero, List.filter_eq_nil_iff, List.all_eq_true]
  constructor
  · intro h c hc
    have := h c hc
    simpa using this
  · intro h c hc
    simpa using h c hc

theorem countNWL_append (a b : List PyStr) :
    countNWL (a ++ b) = countNWL a + countNWL b := by
  unfold countNWL
  rw [List.map_append, List.sum_append]

theorem countNW_flatten (l : List PyStr) : countNW l.flatten = countNWL l := by
  induction l with
  | nil => rfl
  | cons x t ih =>
    rw [List.flatten_cons, countNW_append, ih]
    rfl

theorem length_flatten_eq_sumLen (l : List PyStr) : l.flatten.length = sumLen l := by
  induction l with
  | nil => rfl
  | cons x t ih =>
    rw [List.flatten_cons, List.length_append, ih]
    rfl

theorem countNW_munge (s : PyStr) : countNW (munge s) = countNW s := by
  unfold countNW munge
  rw [List.filter_map, List.length_map]
  congr 1
  apply List.filter_congr
  intro c _
  show (!isPySpace (mungeChar c)) = (!isPySpace c)
  unfold mungeChar
  split
  · rename_i h
    rcases h with h | h | h | h | h <;> (subst h; decide)
  · rfl

theorem sumLen_cons (x : PyStr) (t : List PyStr) :
    sumLen (x :: t) = x.length + sumLen t := by
  unfold sumLen
  rw [List.map_cons, List.sum_cons]

theorem sumLen_append (a b : List PyStr) :
    sumLen (a ++ b) = sumLen a + sumLen b := by
  unfold sumLen
  rw [List.map_append, List.sum_append]

theorem countNW_zero_of_stripEmpty (s : PyStr) (h : stripEmpty s = true) :
    countNW s = 0 :=
  (countNW_eq_zero_iff s).mpr h

theorem lastHyphenIdx_lt : ∀ (s : PyStr) (h : Nat),
    lastHyphenIdx s = some h → h < s.length := by
  intro s
  induction s with
  | nil => intro h hc; simp [lastHyphenIdx] at hc
  | cons c cs ih =>
    intro h hc
    simp only [lastHyphenIdx] at hc
    cases hL : lastHyphenIdx cs with
    | some j =>
      rw [hL] at hc
      simp only [] at hc
      cases hc
      have := ih j hL
      simp
      omega
    | none =>
      rw [hL] at hc
      simp only [] at hc
      split at hc
      · cases hc; simp
      · exact absurd hc (by simp)

theorem greedyTake_spec (width : Nat) : ∀ (chunks : List PyStr) (acc : Nat),
    (greedyTake width acc chunks).1 ++ (greedyTake width acc chunks).2.2 = chunks ∧
    (greedyTake width acc chunks).2.1 = acc + sumLen (greedyTake width acc chunks).1 ∧
    (acc ≤ width → (greedyTake width acc chunks).2.1 ≤ width) := by
  intro chunks
  induction chunks with
  | nil =>
    intro acc
    refine ⟨rfl, by simp [greedyTake, sumLen], fun h => h⟩
  | cons c cs ih =>
    intro acc
    simp only [greedyTake]
    by_cases hle : acc + c.length ≤ width
    · rw [if_pos hle]
      rcases ih (acc + c.length) with ⟨h1, h2, h3⟩
      refine ⟨by simp [h1], ?_, fun _ => h3 hle⟩
      rw [h2, sumLen_cons]
      omega
    · rw [if_neg hle]
      exact ⟨rfl, by simp [sumLen], fun h => h⟩

theorem greedyTake_stuck (width : Nat) (chunks : List PyStr) (acc : Nat)
    (c : PyStr) (cs : List PyStr)
    (h1 : (greedyTake width acc chunks).1 = [])
    (h2 : (greedyTake width acc chunks).2.2 = c :: cs) :
    width < acc + c.length := by
  cases chunks with
  | nil => simp [greedyTake] at h2
  | cons d ds =>
    simp only [greedyTake] at h1 h2
    by_cases hle : acc + d.length ≤ width
    · rw [if_pos hle] at h1
      simp at h1
    · rw [if_neg hle] at h2
      cases h2
      omega

theorem handleLongWord_spec (chunk : PyStr) (rest : List PyStr)
    (curLen width : Nat) (hw : 1 ≤ width) (hcl : curLen ≤ width) :
    ∃ e, handleLongWord (chunk :: rest) curLen width = (chunk.take e, chunk.drop e :: rest) ∧
      e ≤ width - curLen ∧ (curLen = 0 → 1 ≤ e) := by
  simp only [handleLongWord]
  have hsl : (if width < 1 then 1 else width - curLen) = width - curLen := by
    rw [if_neg (by omega)]
  rw [hsl]
  by_cases hlen : width - curLen < chunk.length
  · rw [if_pos hlen]
    cases hL : lastHyphenIdx (chunk.take (width - curLen)) with
    | some h =>
      simp only []
      by_cases hcond : 0 < h ∧ (chunk.take h).any (fun x => !isDash x) = true
      · rw [if_pos hcond]
        refine ⟨h + 1, rfl, ?_, fun _ => by omega⟩
        have := lastHyphenIdx_lt _ h hL
        rw [List.length_take] at this
        omega
      · rw [if_neg hcond]
        exact ⟨width - curLen, rfl, le_refl _, fun h0 => by omega⟩
    | none =>
      simp only []
      exact ⟨width - curLen, rfl, le_refl _, fun h0 => by omega⟩
  · rw [if_neg hlen]
    exact ⟨width - curLen, rfl, le_refl _, fun h0 => by omega⟩

theorem measure2_cons (x : PyStr) (t : List PyStr) :
    measure2 (x :: t) = x.length + 1 + measure2 t := by
  unfold measure2
  rw [sumLen_cons]
  simp
  omega

theorem measure2_append (a b : List PyStr) :
    measure2 (a ++ b) = measure2 a + measure2 b := by
  unfold measure2
  rw [sumLen_append, List.length_append]
  omega

theorem measure2_pos (l : List PyStr) (h : l ≠ []) : 1 ≤ measure2 l := by
  cases l with
  | nil => exact absurd rfl h
  | cons x t => rw [measure2_cons]; omega

theorem sumLen_nil : sumLen ([] : List PyStr) = 0 := rfl

theorem countNWL_nil : countNWL ([] : List PyStr) = 0 := rfl

theorem countNWL_cons (x : PyStr) (t : List PyStr) :
    countNWL (x :: t) = countNW x + countNWL t := by
  unfold countNWL
  rw [List.map_cons, List.sum_cons]

theorem measure2_nil : measure2 ([] : List PyStr) = 0 := rfl

theorem buildLine_spec (width : Nat) (hw : 1 ≤ width) (chunks1 : List PyStr) :
    sumLen (buildLine width chunks1).1 ≤ width ∧
    countNWL (buildLine width chunks1).1 + countNWL (buildLine width chunks1).2 =
      countNWL chunks1 ∧
    measure2 (buildLine width chunks1).2 ≤ measure2 chunks1 ∧
    (chunks1 ≠ [] → measure2 (buildLine width chunks1).2 < measure2 chunks1) := by
  rcases hg : greedyTake width 0 chunks1 with ⟨taken, curLen, rest⟩
  have hspec := greedyTake_spec width chunks1 0
  rw [hg] at hspec
  rcases hspec with ⟨h1, h2, h3⟩
  simp only [] at h1 h2 h3
  have h3w : curLen ≤ width := h3 (by omega)
  rw [Nat.zero_add] at h2
  cases rest with
  | nil =>
    have hbl : buildLine width chunks1 = (taken, []) := by
      simp only [buildLine, hg]
    rw [List.append_nil] at h1
    subst h1
    rw [hbl]
    refine ⟨?_, ?_, ?_, ?_⟩
    · show sumLen taken ≤ width
      omega
    · show countNWL taken + countNWL [] = countNWL taken
      rw [countNWL_nil]
      omega
    · show measure2 [] ≤ measure2 taken
      rw [measure2_nil]
      omega
    · intro hne
      show measure2 [] < measure2 taken
      have := measure2_pos taken hne
      rw [measure2_nil]
      omega
  | cons c cs =>
    by_cases hwide : width < c.length
    · rcases handleLongWord_spec c cs curLen width hw h3w with ⟨e, heq, hle, hpos⟩
      have hbl : buildLine width chunks1 = (taken ++ [c.take e], c.drop e :: cs) := by
        simp only [buildLine, hg, if_pos hwide, heq]
      subst h1
      rw [hbl]
      have htk : (c.take e).length ≤ e := by
        rw [List.length_take]; omega
      have hkey : measure2 (c.drop e :: cs) + e = measure2 (c :: cs) := by
        rw [measure2_cons, measure2_cons, List.length_drop]
        omega
      have hsup : measure2 (taken ++ c :: cs) =
          measure2 taken + measure2 (c :: cs) := measure2_append _ _
      refine ⟨?_, ?_, ?_, ?_⟩
      · show sumLen (taken ++ [c.take e]) ≤ width
        rw [sumLen_append, sumLen_cons, sumLen_nil]
        omega
      · show countNWL (taken ++ [c.take e]) + countNWL (c.drop e :: cs) =
          countNWL (taken ++ c :: cs)
        rw [countNWL_append, countNWL_append, countNWL_cons, countNWL_cons,
          countNWL_cons, countNWL_nil]
        have hsplit : countNW (c.take e) + countNW (c.drop e) = countNW c := by
          rw [← countNW_append, List.take_append_drop]
        omega
      · show measure2 (c.drop e :: cs) ≤ measure2 (taken ++ c :: cs)
        omega
      · intro _
        show measure2 (c.drop e :: cs) < measure2 (taken ++ c :: cs)
        by_cases htk2 : taken = []
        · subst htk2
          have he1 : 1 ≤ e := hpos (by rw [h2, sumLen_nil])
          have hmn : measure2 ([] : List PyStr) = 0 := rfl
          omega
        · have := measure2_pos taken htk2
          omega
    · have hbl : buildLine width chunks1 = (taken, c :: cs) := by
        simp only [buildLine, hg, if_neg hwide]
      subst h1
      rw [hbl]
      have htk : taken ≠ [] := by
        intro hc
        subst hc
        have := greedyTake_stuck width (([] : List PyStr) ++ c :: cs) 0 c cs
          (by rw [hg]) (by rw [hg])
        omega
      have hm := measure2_pos taken htk
      have hsup : measure2 (taken ++ c :: cs) =
          measure2 taken + measure2 (c :: cs) := measure2_append _ _
      refine ⟨?_, ?_, ?_, ?_⟩
      · show sumLen taken ≤ width
        omega
      · show countNWL taken + countNWL (c :: cs) = countNWL (taken ++ c :: cs)
        rw [countNWL_append]
      · show measure2 (c :: cs) ≤ measure2 (taken ++ c :: cs)
        omega
      · intro _
        show measure2 (c :: cs) < measure2 (taken ++ c :: cs)
        omega

theorem dropTrailingWs_sumLen (l : List PyStr) :
    sumLen (dropTrailingWs l) ≤ sumLen l := by
  unfold dropTrailingWs
  cases hL : l.getLast? with
  | none => exact le_refl _
  | some a =>
    simp only []
    split
    · have hl2 : l.dropLast ++ [a] = l := List.dropLast_append_getLast? a hL
      conv_rhs => rw [← hl2]
      rw [sumLen_append]
      omega
    · exact le_refl _

theorem dropTrailingWs_countNWL (l : List PyStr) :
    countNWL (dropTrailingWs l) = countNWL l := by
  unfold dropTrailingWs
  cases hL : l.getLast? with
  | none => rfl
  | some a =>
    simp only []
    split
    · rename_i hstrip
      have hl2 : l.dropLast ++ [a] = l := List.dropLast_append_getLast? a hL
      conv_rhs => rw [← hl2]
      rw [countNWL_append]
      have := countNW_zero_of_stripEmpty a hstrip
      unfold countNWL
      simp
      omega
    · rfl

theorem wrapStep_spec (width : Nat) (hw : 1 ≤ width) (emitted : Bool)
    (c0 : PyStr) (rest0 : List PyStr) :
    (∀ line, (wrapStep width emitted c0 rest0).1 = some line →
      line.length ≤ width) ∧
    measure2 (wrapStep width emitted c0 rest0).2 < measure2 (c0 :: rest0) ∧
    (match (wrapStep width emitted c0 rest0).1 with
      | none => 0
      | some line => countNW line) +
      countNWL (wrapStep width emitted c0 rest0).2 = countNWL (c0 :: rest0) := by
  have hbl := buildLine_spec width hw (dropHeadWs emitted c0 rest0)
  rcases hblv : buildLine width (dropHeadWs emitted c0 rest0) with ⟨cl0, r2⟩
  rw [hblv] at hbl
  rcases hbl with ⟨hlen, hcnt, hmle, hmlt⟩
  simp only [] at hlen hcnt hmle hmlt
  have hdh : (countNWL (dropHeadWs emitted c0 rest0) = countNWL (c0 :: rest0)) ∧
      (measure2 r2 < measure2 (c0 :: rest0)) := by
    unfold dropHeadWs at hcnt hmle hmlt ⊢
    by_cases hd : emitted = true ∧ stripEmpty c0 = true
    · rw [if_pos hd] at hcnt hmle hmlt ⊢
      constructor
      · show countNWL rest0 = countNWL (c0 :: rest0)
        have := countNW_zero_of_stripEmpty c0 hd.2
        unfold countNWL
        simp
        omega
      · calc measure2 r2 ≤ measure2 rest0 := hmle
          _ < measure2 (c0 :: rest0) := by rw [measure2_cons]; omega
    · rw [if_neg hd] at hcnt hmle hmlt ⊢
      exact ⟨rfl, hmlt (by simp)⟩
  have hws : wrapStep width emitted c0 rest0 =
      (match dropTrailingWs cl0 with
       | [] => (none, r2)
       | curLine => (some curLine.flatten, r2)) := by
    simp only [wrapStep, hblv]
  have hdtwc := dropTrailingWs_countNWL cl0
  have hdtws := dropTrailingWs_sumLen cl0
  cases hdtw : dropTrailingWs cl0 with
  | nil =>
    rw [hdtw] at hws hdtwc
    rw [hws]
    refine ⟨fun line hc => by simp at hc, hdh.2, ?_⟩
    have h0 : countNWL cl0 = 0 := by
      rw [← hdtwc, countNWL_nil]
    show (0 : Nat) + countNWL r2 = countNWL (c0 :: rest0)
    omega
  | cons x xs =>
    rw [hdtw] at hws hdtwc hdtws
    rw [hws]
    refine ⟨?_, hdh.2, ?_⟩
    · intro line hc
      simp only [] at hc
      cases hc
      rw [length_flatten_eq_sumLen]
      omega
    · simp only []
      rw [countNW_flatten, hdtwc]
      omega

/-- Every line emitted by the wrapping loop has length at most `width`. -/
theorem wrapLoop_len : ∀ (fuel width : Nat), 1 ≤ width →
    ∀ (emitted : Bool) (chunks : List PyStr) (l : PyStr),
      l ∈ wrapLoop fuel width emitted chunks → l.length ≤ width := by
  intro fuel
  induction fuel with
  | zero => intro width _ emitted chunks l hl; simp [wrapLoop] at hl
  | succ fuel ih =>
    intro width hw emitted chunks l hl
    cases chunks with
    | nil => simp [wrapLoop] at hl
    | cons c0 rest0 =>
      have hspec := wrapStep_spec width hw emitted c0 rest0
      rcases hs : wrapStep width emitted c0 rest0 with ⟨lineOpt, rest2⟩
      rw [hs] at hspec
      simp only [wrapLoop, hs] at hl
      cases lineOpt with
      | none => exact ih width hw emitted rest2 l hl
      | some line =>
        rcases List.mem_cons.mp hl with h1 | h1
        · rw [h1]
          exact hspec.1 line rfl
        · exact ih width hw true rest2 l h1

/-- The wrapping loop preserves the number of non-whitespace characters. -/
theorem wrapLoop_countNWL : ∀ (fuel width : Nat), 1 ≤ width →
    ∀ (emitted : Bool) (chunks : List PyStr), measure2 chunks < fuel →
      countNWL (wrapLoop fuel width emitted chunks) = countNWL chunks := by
  intro fuel
  induction fuel with
  | zero => intro width _ emitted chunks hm; omega
  | succ fuel ih =>
    intro width hw emitted chunks hm
    cases chunks with
    | nil => rfl
    | cons c0 rest0 =>
      have hspec := wrapStep_spec width hw emitted c0 rest0
      rcases hs : wrapStep width emitted c0 rest0 with ⟨lineOpt, rest2⟩
      rw [hs] at hspec
      rcases hspec with ⟨_, hmlt, hcnt⟩
      simp only [] at hmlt hcnt
      have hm2 : measure2 rest2 < fuel := by omega
      simp only [wrapLoop, hs]
      cases lineOpt with
      | none =>
        show countNWL (wrapLoop fuel width emitted rest2) = countNWL (c0 :: rest0)
        rw [ih width hw emitted rest2 hm2]
        simpa using hcnt
      | some line =>
        show countNWL (line :: wrapLoop fuel width true rest2) = countNWL (c0 :: rest0)
        rw [countNWL_cons, ih width hw true rest2 hm2]
        simpa using hcnt

theorem wordScan_snd_le_cons (lookback acc : PyStr) (c : Char) (rs : PyStr) :
    (wordScan lookback acc (c :: rs)).2.length ≤ rs.length := by
  simp only [wordScan]
  split
  · exact le_refl _
  · exact wordScan_snd_le lookback rs (c :: acc)

/-- The run splitter only rearranges characters: flattening its chunks gives
back the run. -/
theorem splitRunCore_flatten : ∀ (n : Nat) (lb rest : PyStr),
    rest.length < n → (splitRunCore n lb rest).flatten = rest := by
  intro n
  induction n with
  | zero => intro lb rest h; omega
  | succ n ih =>
    intro lb rest hlen
    cases rest with
    | nil => rfl
    | cons c rs =>
      simp only [splitRunCore]
      by_cases hed : emDashAt lb (c :: rs) = true
      · rw [if_pos hed]
        rw [List.flatten_cons]
        have hdash : isDash c = true := by
          unfold emDashAt at hed
          by_cases hc : isDash c = true
          · exact hc
          · exfalso
            rw [show (c :: rs).takeWhile isDash = [] from
              List.takeWhile_cons_of_neg hc] at hed
            simp at hed
        have hdrop : (c :: rs).dropWhile isDash = rs.dropWhile isDash :=
          List.dropWhile_cons_of_pos hdash
        have hdlen : ((c :: rs).dropWhile isDash).length < n := by
          rw [hdrop]
          have := dropWhile_len_le isDash rs
          simp at hlen
          omega
        rw [ih _ _ hdlen]
        exact List.takeWhile_append_dropWhile _ _
      · rw [if_neg hed]
        rw [List.flatten_cons]
        have hws := wordScan_snd_le_cons lb [] c rs
        have hlen2 : (wordScan lb [] (c :: rs)).2.length < n := by
          simp at hlen
          omega
        rw [ih _ _ hlen2]
        have := wordScan_append lb (c :: rs) []
        simpa using this

/-- `_split` only rearranges characters. -/
theorem pySplitCore_flatten : ∀ (n : Nat) (s : PyStr),
    s.length < n → (pySplitCore n s).flatten = s := by
  intro n
  induction n with
  | zero => intro s h; omega
  | succ n ih =>
    intro s hlen
    cases s with
    | nil => rfl
    | cons c cs =>
      simp only [pySplitCore]
      by_cases hc : c = ' '
      · rw [if_pos hc]
        rw [List.flatten_cons]
        have hdrop : ((c :: cs).dropWhile isSpaceCh).length < n := by
          rw [List.dropWhile_cons_of_pos (by simp [isSpaceCh, hc])]
          have := dropWhile_len_le isSpaceCh cs
          simp at hlen
          omega
        rw [ih _ hdrop]
        exact List.takeWhile_append_dropWhile _ _
      · rw [if_neg hc]
        rw [List.flatten_append]
        have hdrop : ((c :: cs).dropWhile (fun x => !isSpaceCh x)).length < n := by
          rw [List.dropWhile_cons_of_pos (by simp [isSpaceCh, hc])]
          have := dropWhile_len_le (fun x => !isSpaceCh x) cs
          simp at hlen
          omega
        rw [ih _ hdrop]
        unfold splitRun
        rw [splitRunCore_flatten _ [] _ (by omega)]
        exact List.takeWhile_append_dropWhile _ _

theorem pySplit_flatten (s : PyStr) : (pySplit s).flatten = s :=
  pySplitCore_flatten (s.length + 1) s (by omega)

/-- Non-whitespace characters survive munging and splitting. -/
theorem countNWL_chunks (text : PyStr) :
    countNWL (pySplit (munge text)) = countNW text := by
  rw [← countNW_flatten, pySplit_flatten, countNW_munge]

/-- If `textwrap.wrap` returns no lines, every character of the input is
whitespace. -/
theorem textwrapWrap_nil_all_ws (text : PyStr) (width : Nat) (hw : 1 ≤ width)
    (h : textwrapWrap text width = []) : text.all isPySpace = true := by
  have hcnt := wrapLoop_countNWL (sumLen (pySplit (munge text)) +
      (pySplit (munge text)).length + 1) width hw false (pySplit (munge text))
    (by unfold measure2; omega)
  unfold textwrapWrap at h
  rw [h, countNWL_nil] at hcnt
  rw [countNWL_chunks] at hcnt
  exact (countNW_eq_zero_iff text).mp hcnt.symm

/-- C4 counterexample: for `text = "  "` (two spaces) and width 1,
`textwrap.wrap` drops the whitespace-only content and returns no lines, so
`wrap_text` falls back to `["  "]`: that line has visible length 2 > 1, yet
the input is not a single unbreakable token (it contains no token at all) —
neither disjunct of the claim holds. -/
theorem claim_C4_counterexample :
    wrap_text "  ".toList 1 = some ["  ".toList] ∧
    ¬ (∀ l ∈ (wrap_text "  ".toList 1).getD [],
        visibleLen l ≤ 1 ∨ singleLongToken "  ".toList 1 = true) := by decide

/-- C4 (amended): for every text and width ≥ 1, `wrap_text` succeeds; every
returned line has visible length at most `width`, except when the input
consists entirely of whitespace and is longer than `width` (then the original
text comes back as a single over-long line); the result is never empty, and
empty input yields `[""]`. -/
theorem claim_C4_wrap_bounds (text : PyStr) (width : Nat) (hw : 1 ≤ width) :
    (wrap_text text width).getD [] ≠ [] ∧
    (text = [] → (wrap_text text width).getD [] = [[]]) ∧
    ∀ l ∈ (wrap_text text width).getD [],
      visibleLen l ≤ width ∨ (text.all isPySpace = true ∧ width < text.length) := by
  by_cases hfit : text.length ≤ width
  · have hv : wrap_text text width = some [text] := by
      unfold wrap_text
      rw [if_pos hfit]
    rw [hv]
    refine ⟨by simp, fun h => by rw [h]; rfl, ?_⟩
    intro l hl
    rcases List.mem_singleton.mp hl with h
    subst h
    left
    calc visibleLen l ≤ l.length := visibleLen_le l
      _ ≤ width := hfit
  · have hne : text ≠ [] := by
      intro h
      subst h
      exact hfit (by simp)
    have hv : wrap_text text width =
        some (if textwrapWrap text width = [] then [text]
              else textwrapWrap text width) := by
      unfold wrap_text
      rw [if_neg hfit, if_neg (by omega)]
    rw [hv]
    by_cases hwe : textwrapWrap text width = []
    · rw [if_pos hwe] at hv ⊢
      refine ⟨by simp, fun h => absurd h hne, ?_⟩
      intro l hl
      rcases List.mem_singleton.mp hl with h
      subst h
      right
      exact ⟨textwrapWrap_nil_all_ws l width hw hwe, by omega⟩
    · rw [if_neg hwe] at hv ⊢
      refine ⟨by simpa using hwe, fun h => absurd h hne, ?_⟩
      intro l hl
      left
      have := wrapLoop_len (sumLen (pySplit (munge text)) +
          (pySplit (munge text)).length + 1) width hw false
        (pySplit (munge text)) l (by
          unfold textwrapWrap at hl
          simpa using hl)
      calc visibleLen l ≤ l.length := visibleLen_le l
        _ ≤ width := this

/-- C4 witness: `"ab cd"` at width 2 — wrapped, every line within the width,
non-empty result. -/
theorem claim_C4_witness :
    (wrap_text "ab cd".toList 2).getD [] ≠ [] ∧
    ("ab cd".toList = [] → (wrap_text "ab cd".toList 2).getD [] = [[]]) ∧
    ∀ l ∈ (wrap_text "ab cd".toList 2).getD [],
      visibleLen l ≤ 2 ∨ ("ab cd".toList.all isPySpace = true ∧
        2 < "ab cd".toList.length) :=
  claim_C4_wrap_bounds "ab cd".toList 2 (by decide)

end Logsy

